import Mathlib

set_option maxRecDepth 100000

/-!
A shallow embedding of `generate_review/ci_review.py` and proofs about it.

Strings are modelled as `List Char`, integers as `Nat`/`Int`, and rationals
stand in for Python floats (arithmetic is modelled exactly).  Fallible or
effectful steps (HTTP posts) are modelled by passing their outcomes in as
`Except` values; the orchestration logic that reacts to those outcomes is
translated faithfully from the source.
-/

/-- ASCII whitespace as matched by Python's `\s` and stripped by `str.strip()`
(the documents handled by the script are treated as ASCII-whitespace only;
Python additionally strips some rare Unicode whitespace). -/
def isPySpace (c : Char) : Bool :=
  c = ' ' || c = '\t' || c = '\n' || c = '\r' || c = '\x0b' || c = '\x0c'

/-- Python `str.strip()`: drop leading and trailing whitespace. -/
def stripWs (s : List Char) : List Char :=
  ((s.dropWhile isPySpace).reverse.dropWhile isPySpace).reverse

/-- Helper for `re.sub(r"\s+", " ", s)`: the flag records whether the previous
character was part of a whitespace run already replaced by one space. -/
def collapseWsAux : Bool → List Char → List Char
  | _, [] => []
  | prev, c :: rest =>
    if isPySpace c then
      if prev then collapseWsAux true rest
      else ' ' :: collapseWsAux true rest
    else c :: collapseWsAux false rest

/-- `re.sub(r"\s+", " ", s)`: collapse each whitespace run to a single space. -/
def collapseWs (s : List Char) : List Char := collapseWsAux false s

/-- The local `norm` inside `find_lineno_by_excerpt`:
`re.sub(r"\s+", " ", s or "").strip()`. -/
def normWs (s : List Char) : List Char := stripWs (collapseWs s)

/-- Length of the run of equal characters at the heads of the two lists. -/
def runLen : List Char → List Char → Nat
  | x :: xs, y :: ys => if x = y then runLen xs ys + 1 else 0
  | _, _ => 0

/-- difflib's autojunk "popular" test (`isjunk=None`, `autojunk=True`): when
the second sequence `b` has at least 200 elements, every element occurring
more than `len(b)//100 + 1` times is purged from `b2j` and thus cannot seed
or continue a matching block in the dynamic-programming scan. -/
def isPopular (b : List Char) (c : Char) : Bool :=
  200 ≤ b.length && b.length / 100 + 1 < b.count c

/-- Length of the run of equal, non-popular characters at the heads of the
two lists: the kind of run difflib's purged `b2j` scan can build. -/
def runLenNP (pop : Char → Bool) : List Char → List Char → Nat
  | x :: xs, y :: ys =>
    if x = y ∧ pop y = false then runLenNP pop xs ys + 1 else 0
  | _, _ => 0

/-- The dynamic-programming phase of `SequenceMatcher.find_longest_match`
over the purged `b2j`: the longest matching block made of non-popular
characters, as `(start in a, start in b, length)`, ties resolved to the
earliest start in `a` and then the earliest start in `b` — which is what the
left-to-right scan with a strict improvement test computes.  When nothing
matches the result stays `(alo, blo, 0) = (0, 0, 0)`. -/
def bestMatchDP (pop : Char → Bool) (a b : List Char) : Nat × Nat × Nat :=
  (List.range a.length).foldl (fun acc i =>
    (List.range b.length).foldl (fun acc2 j =>
      let k := runLenNP pop (a.drop i) (b.drop j)
      if acc2.2.2 < k then (i, j, k) else acc2) acc) (0, 0, 0)

/-- The first extension loop of `find_longest_match`: widen the block to the
left over any equal characters (popular ones included), as far as the run of
equal characters before its two start positions reaches. -/
def extendLeft (a b : List Char) (d : Nat × Nat × Nat) : Nat × Nat × Nat :=
  (d.1 - runLen (a.take d.1).reverse (b.take d.2.1).reverse,
   d.2.1 - runLen (a.take d.1).reverse (b.take d.2.1).reverse,
   d.2.2 + runLen (a.take d.1).reverse (b.take d.2.1).reverse)

/-- The second extension loop of `find_longest_match`: widen the block to
the right over any equal characters after its two end positions. -/
def extendRight (a b : List Char) (d : Nat × Nat × Nat) : Nat × Nat × Nat :=
  (d.1, d.2.1,
   d.2.2 + runLen (a.drop (d.1 + d.2.2)) (b.drop (d.2.1 + d.2.2)))

/-- `SequenceMatcher.find_longest_match` with `isjunk=None`: the purged DP
block, then the two greedy extension loops that widen it over *any* equal
characters (popular ones included) to the left and to the right; the two
junk-extension loops never fire since `bjunk` is empty. -/
def bestMatch (pop : Char → Bool) (a b : List Char) : Nat × Nat × Nat :=
  extendRight a b (extendLeft a b (bestMatchDP pop a b))

/-- Total size of difflib's `get_matching_blocks`: the longest matching block
plus, recursively, the matches strictly before and strictly after it, with
the popularity test `pop` fixed once from the whole second sequence.  The
explicit fuel makes the recursion structural; `a.length + b.length` steps
always suffice (`matchTotalF_fuel`). -/
def matchTotalF (pop : Char → Bool) : Nat → List Char → List Char → Nat
  | 0, _, _ => 0
  | fuel + 1, a, b =>
    let m := bestMatch pop a b
    if m.2.2 = 0 then 0
    else matchTotalF pop fuel (a.take m.1) (b.take m.2.1) + m.2.2 +
         matchTotalF pop fuel (a.drop (m.1 + m.2.2)) (b.drop (m.2.1 + m.2.2))

/-- Total matched size used by `SequenceMatcher.ratio`: the popularity test
comes from the full second sequence `b` and is carried unchanged through the
recursion on sub-ranges, as `__chain_b` computes `b2j` once. -/
def matchTotal (a b : List Char) : Nat :=
  matchTotalF (isPopular b) (a.length + b.length) a b

/-- `difflib.SequenceMatcher(None, a, b).ratio()` = `2*M/T` where `M` is the
total matched size and `T = len(a)+len(b)`, and `1.0` when `T = 0`; modelled
as an exact rational. -/
def simScore (a b : List Char) : ℚ :=
  if a.length + b.length = 0 then 1
  else mkRat (2 * matchTotal a b) (a.length + b.length)

/-- Python `needle in hay` for strings: substring containment. -/
def containsSub (needle : List Char) : List Char → Bool
  | [] => needle.isEmpty
  | c :: rest => needle.isPrefixOf (c :: rest) || containsSub needle rest

/-- The exact-substring pass of `find_lineno_by_excerpt`: the 1-based index of
the first line containing `ex` as a substring (`i` is the index of the first
line of the remaining list). -/
def substrFirst (ex : List Char) : List (List Char) → Nat → Option Nat
  | [], _ => none
  | ln :: rest, i => if containsSub ex ln then some i else substrFirst ex rest (i + 1)

/-- The fuzzy-pass loop of `find_lineno_by_excerpt`: scan lines keeping the
running `(best_i, best_score)` pair, updating only on strict improvement
(`score > best_score`), with `i` the 1-based index of the current line. -/
def fuzzyLoop (sim : List Char → List Char → ℚ) (exn : List Char) :
    List (List Char) → Nat → Option Nat → ℚ → Option Nat × ℚ
  | [], _, besti, bests => (besti, bests)
  | ln :: rest, i, besti, bests =>
    let score := sim exn (normWs ln)
    if bests < score then fuzzyLoop sim exn rest (i + 1) (some i) score
    else fuzzyLoop sim exn rest (i + 1) besti bests

/-- `find_lineno_by_excerpt`, parameterised by the similarity kernel `sim`
applied to the normalized excerpt and each normalized line (the source uses
`SequenceMatcher(None, exn, norm(ln)).ratio()`, i.e. `sim = simScore`;
the parameter makes "the fuzzy pass is not consulted" a provable statement).
The Python truthiness test `best_i` distinguishes `None` from an index; an
index of `0` never arises since enumeration starts at 1. -/
def find_lineno_by_excerpt_sim (sim : List Char → List Char → ℚ)
    (original_lines : List (List Char)) (excerpt : List Char) : Option Nat :=
  if stripWs excerpt = [] then none
  else
    match substrFirst (stripWs excerpt) original_lines 1 with
    | some i => some i
    | none =>
      match fuzzyLoop sim (normWs (stripWs excerpt)) original_lines 1 none 0 with
      | (some i, s) => if mkRat 3 5 ≤ s then some i else none
      | (none, _) => none

/-- `find_lineno_by_excerpt` from the source: substring pass first, then the
fuzzy pass with the `SequenceMatcher` ratio and the `0.6` acceptance bar. -/
def find_lineno_by_excerpt : List (List Char) → List Char → Option Nat :=
  find_lineno_by_excerpt_sim simScore

/-- `substrFirst` finds nothing exactly when no line contains the excerpt. -/
theorem substrFirst_eq_none_iff (ex : List Char) :
    ∀ (lines : List (List Char)) (i : Nat),
      substrFirst ex lines i = none ↔ ∀ ln ∈ lines, containsSub ex ln = false := by
  intro lines
  induction lines with
  | nil => intro i; simp [substrFirst]
  | cons ln rest ih =>
    intro i
    by_cases h : containsSub ex ln
    · simp [substrFirst, h]
    · simp only [Bool.not_eq_true] at h
      simp [substrFirst, h, ih (i + 1)]

/-- `substrFirst` returns `i + |pre|` where `pre` is the longest prefix of
lines not containing the excerpt, followed by a line that does contain it. -/
theorem substrFirst_eq_some_iff (ex : List Char) :
    ∀ (lines : List (List Char)) (i k : Nat),
      substrFirst ex lines i = some k ↔
        ∃ pre ln post, lines = pre ++ ln :: post ∧ containsSub ex ln = true ∧
          (∀ l₀ ∈ pre, containsSub ex l₀ = false) ∧ k = i + pre.length := by
  intro lines
  induction lines with
  | nil =>
    intro i k
    simp only [substrFirst]
    constructor
    · intro h; cases h
    · rintro ⟨pre, ln, post, h, -⟩
      exact absurd h (List.append_ne_nil_of_right_ne_nil pre (by simp)).symm
  | cons ln0 rest ih =>
    intro i k
    by_cases h : containsSub ex ln0
    · simp only [substrFirst, h, if_pos]
      constructor
      · rintro ⟨rfl⟩
        exact ⟨[], ln0, rest, rfl, h, by simp, by simp⟩
      · rintro ⟨pre, ln, post, heq, hc, hpre, rfl⟩
        cases pre with
        | nil => simp
        | cons p pre' =>
          simp only [List.cons_append, List.cons.injEq] at heq
          exact absurd h (by rw [heq.1]; simp [hpre p (by simp)])
    · simp only [Bool.not_eq_true] at h
      simp only [substrFirst, h, Bool.false_eq_true, if_neg, not_false_iff]
      rw [ih (i + 1) k]
      constructor
      · rintro ⟨pre, ln, post, heq, hc, hpre, rfl⟩
        refine ⟨ln0 :: pre, ln, post, by simp [heq], hc, ?_, by simp; omega⟩
        intro l₀ hl₀
        rcases List.mem_cons.mp hl₀ with rfl | hmem
        · exact h
        · exact hpre l₀ hmem
      · rintro ⟨pre, ln, post, heq, hc, hpre, rfl⟩
        cases pre with
        | nil =>
          simp only [List.nil_append, List.cons.injEq] at heq
          exact absurd hc (by rw [← heq.1]; simp [h])
        | cons p pre' =>
          simp only [List.cons_append, List.cons.injEq] at heq
          refine ⟨pre', ln, post, heq.2, hc, ?_, by simp; omega⟩
          intro l₀ hl₀
          exact hpre l₀ (List.mem_cons_of_mem p hl₀)

/-- C1: for every list of lines and every excerpt that is non-empty after
trimming and occurs as a substring of at least one line,
`find_lineno_by_excerpt` returns the 1-based index of the first line that
contains the trimmed excerpt as a substring; the similarity kernel `sim` is
universally quantified, so the fuzzy pass is not consulted. -/
theorem find_lineno_exact_pass_first_hit
    (sim : List Char → List Char → ℚ)
    (lines : List (List Char)) (excerpt : List Char)
    (hne : stripWs excerpt ≠ [])
    (hhit : ∃ ln ∈ lines, containsSub (stripWs excerpt) ln = true) :
    ∃ pre ln post, lines = pre ++ ln :: post ∧
      containsSub (stripWs excerpt) ln = true ∧
      (∀ l₀ ∈ pre, containsSub (stripWs excerpt) l₀ = false) ∧
      find_lineno_by_excerpt_sim sim lines excerpt = some (pre.length + 1) ∧
      find_lineno_by_excerpt lines excerpt = some (pre.length + 1) := by
  rcases hhit with ⟨ln, hln, hc⟩
  rcases hfirst : substrFirst (stripWs excerpt) lines 1 with _ | k
  · rw [substrFirst_eq_none_iff] at hfirst
    exact absurd hc (by simp [hfirst ln hln])
  · have hfs := hfirst
    rw [substrFirst_eq_some_iff] at hfirst
    rcases hfirst with ⟨pre, ln₁, post, heq, hc₁, hpre, rfl⟩
    have key : ∀ s, find_lineno_by_excerpt_sim s lines excerpt = some (pre.length + 1) := by
      intro s
      unfold find_lineno_by_excerpt_sim
      rw [if_neg hne, hfs]
      simp [Nat.add_comm 1 pre.length]
    exact ⟨pre, ln₁, post, heq, hc₁, hpre, key sim, key simScore⟩

theorem find_lineno_exact_pass_first_hit_witness :
    (stripWs " cd ".toList ≠ [] ∧
      ∃ ln ∈ ["ab".toList, "xcdy".toList, "cd".toList],
        containsSub (stripWs " cd ".toList) ln = true) ∧
    ∃ pre ln post,
      ["ab".toList, "xcdy".toList, "cd".toList] = pre ++ ln :: post ∧
      containsSub (stripWs " cd ".toList) ln = true ∧
      (∀ l₀ ∈ pre, containsSub (stripWs " cd ".toList) l₀ = false) ∧
      find_lineno_by_excerpt_sim (fun _ _ => 0)
        ["ab".toList, "xcdy".toList, "cd".toList] " cd ".toList = some (pre.length + 1) ∧
      find_lineno_by_excerpt
        ["ab".toList, "xcdy".toList, "cd".toList] " cd ".toList = some (pre.length + 1) :=
  ⟨⟨by decide, by decide⟩,
    find_lineno_exact_pass_first_hit (fun _ _ => 0) _ _ (by decide) (by decide)⟩

/-- Full characterization of the fuzzy-pass loop: either no line scores
strictly above the incoming best score and the accumulator is returned
unchanged, or the first line attaining the maximal score strictly above the
incoming best is returned together with its score. -/
theorem fuzzyLoop_spec (sim : List Char → List Char → ℚ) (exn : List Char) :
    ∀ (lines : List (List Char)) (i : Nat) (b0 : Option Nat) (s0 : ℚ),
      (fuzzyLoop sim exn lines i b0 s0 = (b0, s0) ∧
        ∀ ln ∈ lines, sim exn (normWs ln) ≤ s0) ∨
      (∃ pre ln post, lines = pre ++ ln :: post ∧
        fuzzyLoop sim exn lines i b0 s0 = (some (i + pre.length), sim exn (normWs ln)) ∧
        s0 < sim exn (normWs ln) ∧
        (∀ l₀ ∈ pre, sim exn (normWs l₀) < sim exn (normWs ln)) ∧
        (∀ l₀ ∈ lines, sim exn (normWs l₀) ≤ sim exn (normWs ln))) := by
  intro lines
  induction lines with
  | nil =>
    intro i b0 s0
    left
    exact ⟨rfl, by simp⟩
  | cons ln0 rest ih =>
    intro i b0 s0
    by_cases hlt : s0 < sim exn (normWs ln0)
    · have hres : fuzzyLoop sim exn (ln0 :: rest) i b0 s0 =
          fuzzyLoop sim exn rest (i + 1) (some i) (sim exn (normWs ln0)) := by
        simp [fuzzyLoop, hlt]
      rcases ih (i + 1) (some i) (sim exn (normWs ln0)) with ⟨hr, hall⟩ | hr
      · right
        refine ⟨[], ln0, rest, rfl, ?_, hlt, by simp, ?_⟩
        · rw [hres, hr]; simp
        · intro l₀ hl₀
          rcases List.mem_cons.mp hl₀ with rfl | hmem
          · exact le_refl _
          · exact hall l₀ hmem
      · rcases hr with ⟨pre, ln, post, heq, hr, hlt', hpre, hall⟩
        right
        refine ⟨ln0 :: pre, ln, post, by simp [heq], ?_, lt_trans hlt hlt', ?_, ?_⟩
        · rw [hres, hr]
          simp only [List.length_cons, Prod.mk.injEq, Option.some.injEq, and_true]
          omega
        · intro l₀ hl₀
          rcases List.mem_cons.mp hl₀ with rfl | hmem
          · exact hlt'
          · exact hpre l₀ hmem
        · intro l₀ hl₀
          rcases List.mem_cons.mp hl₀ with rfl | hmem
          · exact le_of_lt hlt'
          · exact hall l₀ (heq ▸ hmem)
    · have hres : fuzzyLoop sim exn (ln0 :: rest) i b0 s0 =
          fuzzyLoop sim exn rest (i + 1) b0 s0 := by
        simp [fuzzyLoop, hlt]
      rcases ih (i + 1) b0 s0 with ⟨hr, hall⟩ | hr
      · left
        refine ⟨by rw [hres, hr], ?_⟩
        intro l₀ hl₀
        rcases List.mem_cons.mp hl₀ with rfl | hmem
        · exact le_of_not_lt hlt
        · exact hall l₀ hmem
      · rcases hr with ⟨pre, ln, post, heq, hr, hlt', hpre, hall⟩
        right
        have hln0 : sim exn (normWs ln0) < sim exn (normWs ln) :=
          lt_of_le_of_lt (le_of_not_lt hlt) hlt'
        refine ⟨ln0 :: pre, ln, post, by simp [heq], ?_, hlt', ?_, ?_⟩
        · rw [hres, hr]
          simp only [List.length_cons, Prod.mk.injEq, Option.some.injEq, and_true]
          omega
        · intro l₀ hl₀
          rcases List.mem_cons.mp hl₀ with rfl | hmem
          · exact hln0
          · exact hpre l₀ hmem
        · intro l₀ hl₀
          rcases List.mem_cons.mp hl₀ with rfl | hmem
          · exact le_of_lt hln0
          · exact hall l₀ (heq ▸ hmem)

/-- C2: `find_lineno_by_excerpt` returns `None` ("unresolved") if and only if
the excerpt is empty after trimming, or no line contains the trimmed excerpt
as a substring and every line's normalized `SequenceMatcher` similarity with
the normalized excerpt is below `0.6`. -/
theorem find_lineno_unresolved_iff (lines : List (List Char)) (excerpt : List Char) :
    find_lineno_by_excerpt lines excerpt = none ↔
      (stripWs excerpt = [] ∨
        ((∀ ln ∈ lines, containsSub (stripWs excerpt) ln = false) ∧
         (∀ ln ∈ lines,
            simScore (normWs (stripWs excerpt)) (normWs ln) < mkRat 3 5))) := by
  by_cases h0 : stripWs excerpt = []
  · simp [find_lineno_by_excerpt, find_lineno_by_excerpt_sim, h0]
  · rcases hfirst : substrFirst (stripWs excerpt) lines 1 with _ | k
    · have hnone := (substrFirst_eq_none_iff _ lines 1).mp hfirst
      rcases fuzzyLoop_spec simScore (normWs (stripWs excerpt)) lines 1 none 0 with
        ⟨hr, hall⟩ | ⟨pre, ln, post, heq, hr, hlt, hpre, hall⟩
      · have hfind : find_lineno_by_excerpt lines excerpt = none := by
          unfold find_lineno_by_excerpt find_lineno_by_excerpt_sim
          rw [if_neg h0, hfirst, hr]
        rw [hfind]
        simp only [true_iff]
        right
        refine ⟨hnone, ?_⟩
        intro l₀ hl₀
        exact lt_of_le_of_lt (hall l₀ hl₀) (by decide)
      · have hmem : ln ∈ lines := by rw [heq]; simp
        by_cases hacc : mkRat 3 5 ≤ simScore (normWs (stripWs excerpt)) (normWs ln)
        · have hfind : find_lineno_by_excerpt lines excerpt = some (1 + pre.length) := by
            unfold find_lineno_by_excerpt find_lineno_by_excerpt_sim
            rw [if_neg h0, hfirst, hr]
            simp [hacc]
          rw [hfind]
          simp only [reduceCtorEq, false_iff, not_or]
          refine ⟨h0, ?_⟩
          rintro ⟨-, hsc⟩
          exact absurd hacc (not_le_of_lt (hsc ln hmem))
        · have hfind : find_lineno_by_excerpt lines excerpt = none := by
            unfold find_lineno_by_excerpt find_lineno_by_excerpt_sim
            rw [if_neg h0, hfirst, hr]
            simp [hacc]
          rw [hfind]
          simp only [true_iff]
          right
          refine ⟨hnone, ?_⟩
          intro l₀ hl₀
          exact lt_of_le_of_lt (hall l₀ hl₀) (lt_of_not_le hacc)
    · have hsome := (substrFirst_eq_some_iff _ lines 1 k).mp hfirst
      rcases hsome with ⟨pre, ln, post, heq, hc, hpre, rfl⟩
      have hfind : find_lineno_by_excerpt lines excerpt = some (1 + pre.length) := by
        unfold find_lineno_by_excerpt find_lineno_by_excerpt_sim
        rw [if_neg h0, hfirst]
      rw [hfind]
      simp only [reduceCtorEq, false_iff, not_or]
      refine ⟨h0, ?_⟩
      rintro ⟨hsub, -⟩
      have : containsSub (stripWs excerpt) ln = false := hsub ln (by rw [heq]; simp)
      rw [hc] at this
      cases this

/-- C10: in the fuzzy fallback pass (no substring hit), a returned line
number is the 1-based index of the earliest line attaining the maximal
normalized similarity, the similarity of every earlier line is strictly
smaller, the maximal similarity clears the `0.6` bar, and the returned index
lies between 1 and the number of lines. -/
theorem fuzzy_pass_earliest_max (lines : List (List Char)) (excerpt : List Char) (j : Nat)
    (hnosub : ∀ ln ∈ lines, containsSub (stripWs excerpt) ln = false)
    (hfind : find_lineno_by_excerpt lines excerpt = some j) :
    1 ≤ j ∧ j ≤ lines.length ∧
      ∃ pre ln post, lines = pre ++ ln :: post ∧ j = pre.length + 1 ∧
        mkRat 3 5 ≤ simScore (normWs (stripWs excerpt)) (normWs ln) ∧
        (∀ l₀ ∈ pre, simScore (normWs (stripWs excerpt)) (normWs l₀) <
          simScore (normWs (stripWs excerpt)) (normWs ln)) ∧
        (∀ l₀ ∈ lines, simScore (normWs (stripWs excerpt)) (normWs l₀) ≤
          simScore (normWs (stripWs excerpt)) (normWs ln)) := by
  by_cases h0 : stripWs excerpt = []
  · rw [show find_lineno_by_excerpt lines excerpt = none by
      simp [find_lineno_by_excerpt, find_lineno_by_excerpt_sim, h0]] at hfind
    cases hfind
  · have hfirst : substrFirst (stripWs excerpt) lines 1 = none :=
      (substrFirst_eq_none_iff _ lines 1).mpr hnosub
    rcases fuzzyLoop_spec simScore (normWs (stripWs excerpt)) lines 1 none 0 with
      ⟨hr, -⟩ | ⟨pre, ln, post, heq, hr, -, hpre, hall⟩
    · rw [show find_lineno_by_excerpt lines excerpt = none by
        unfold find_lineno_by_excerpt find_lineno_by_excerpt_sim
        rw [if_neg h0, hfirst, hr]] at hfind
      cases hfind
    · by_cases hacc : mkRat 3 5 ≤ simScore (normWs (stripWs excerpt)) (normWs ln)
      · have hval : find_lineno_by_excerpt lines excerpt = some (1 + pre.length) := by
          unfold find_lineno_by_excerpt find_lineno_by_excerpt_sim
          rw [if_neg h0, hfirst, hr]
          simp [hacc]
        rw [hval] at hfind
        have hj : j = 1 + pre.length := (Option.some.injEq _ _ ▸ hfind).symm
        subst hj
        refine ⟨by omega, ?_, pre, ln, post, heq, by omega, hacc, hpre, hall⟩
        rw [heq]
        simp
        omega
      · have hval : find_lineno_by_excerpt lines excerpt = none := by
          unfold find_lineno_by_excerpt find_lineno_by_excerpt_sim
          rw [if_neg h0, hfirst, hr]
          simp [hacc]
        rw [hval] at hfind
        cases hfind

theorem fuzzy_pass_earliest_max_witness :
    (∀ ln ∈ ["abcd".toList, "abcd".toList],
        containsSub (stripWs "abXd".toList) ln = false) ∧
    (find_lineno_by_excerpt ["abcd".toList, "abcd".toList] "abXd".toList = some 1) ∧
    (1 ≤ 1 ∧ 1 ≤ (["abcd".toList, "abcd".toList] : List (List Char)).length ∧
      ∃ pre ln post, ["abcd".toList, "abcd".toList] = pre ++ ln :: post ∧ 1 = pre.length + 1 ∧
        mkRat 3 5 ≤ simScore (normWs (stripWs "abXd".toList)) (normWs ln) ∧
        (∀ l₀ ∈ pre, simScore (normWs (stripWs "abXd".toList)) (normWs l₀) <
          simScore (normWs (stripWs "abXd".toList)) (normWs ln)) ∧
        (∀ l₀ ∈ ["abcd".toList, "abcd".toList],
          simScore (normWs (stripWs "abXd".toList)) (normWs l₀) ≤
            simScore (normWs (stripWs "abXd".toList)) (normWs ln))) :=
  ⟨by decide, by decide,
    fuzzy_pass_earliest_max ["abcd".toList, "abcd".toList] "abXd".toList 1
      (by decide) (by decide)⟩

/-- The backtick character (U+0060), written via its code point. -/
def btick : Char := Char.ofNat 96

/-- The zero-width space U+200B that `_sanitize_fence` inserts. -/
def zwsp : Char := '\u200B'

/-- Python `s.replace(3*btick, 2*btick + zwsp + btick)`: scan left to right;
on a triple backtick emit the weakened block and skip three characters,
otherwise emit one character and advance by one. -/
def replaceTicks : List Char → List Char
  | c1 :: c2 :: c3 :: rest =>
    if c1 = btick ∧ c2 = btick ∧ c3 = btick then
      btick :: btick :: zwsp :: btick :: replaceTicks rest
    else c1 :: replaceTicks (c2 :: c3 :: rest)
  | other => other

/-- `_sanitize_fence`: strip, then weaken triple backticks. -/
def _sanitize_fence (s : List Char) : List Char := replaceTicks (stripWs s)

/-- Python `s.split("\n")` (always at least one, possibly empty, line). -/
def splitLines : List Char → List (List Char)
  | [] => [[]]
  | c :: rest =>
    if c = '\n' then [] :: splitLines rest
    else
      match splitLines rest with
      | [] => [[c]]
      | l :: ls => (c :: l) :: ls

/-- A line that could act as a Markdown fence delimiter: after leading spaces
it starts with three backticks.  (CommonMark only allows up to three leading
spaces; allowing any number only enlarges the set of lines ruled out.) -/
def isFenceDelimLine (l : List Char) : Bool :=
  [btick, btick, btick].isPrefixOf (l.dropWhile (fun c => c = ' '))

/-- Python `sep.join(parts)`. -/
def joinSep (sep : List Char) : List (List Char) → List Char
  | [] => []
  | [p] => p
  | p :: q :: rest => p ++ sep ++ joinSep sep (q :: rest)

/-- `", ".join(axes)`. -/
def joinComma (axes : List (List Char)) : List Char :=
  joinSep (", ".toList) axes

/-- The `("**axes:** " + ax) if ax else ""` slot of the parts list. -/
def axesSlot (axes : List (List Char)) : List Char :=
  if joinComma axes = [] then [] else "**axes:** ".toList ++ joinComma axes

/-- `"### AI Review"`. -/
def hdrLine : List Char := "### AI Review".toList

/-- `"**excerpt:**"`. -/
def excerptLabel : List Char := "**excerpt:**".toList

/-- The opening fence line of the rendered comment. -/
def fenceOpen : List Char := btick :: btick :: btick :: "text".toList

/-- The closing fence line of the rendered comment. -/
def fenceClose : List Char := [btick, btick, btick]

/-- `render_ai_review_comment`: build the parts list, drop the empty parts,
join with newlines. -/
def render_ai_review_comment (excerpt detail : List Char)
    (axes : List (List Char)) : List Char :=
  joinSep ['\n'] (List.filter (fun p => !p.isEmpty)
    [hdrLine, [],
     axesSlot axes, [],
     excerptLabel,
     fenceOpen,
     _sanitize_fence excerpt,
     fenceClose, [],
     stripWs detail])

/-- Characters other than the backtick pass through `replaceTicks`. -/
theorem replaceTicks_cons_of_ne (c : Char) (r : List Char) (h : c ≠ btick) :
    replaceTicks (c :: r) = c :: replaceTicks r := by
  match r with
  | [] => rfl
  | [c2] => rfl
  | c2 :: c3 :: r2 => simp [replaceTicks, h]

/-- `replaceTicks` preserves the first character. -/
theorem replaceTicks_head (c : Char) (r : List Char) :
    ∃ t, replaceTicks (c :: r) = c :: t := by
  match r with
  | [] => exact ⟨[], rfl⟩
  | [c2] => exact ⟨[c2], rfl⟩
  | c2 :: c3 :: r2 =>
    by_cases h : c = btick ∧ c2 = btick ∧ c3 = btick
    · refine ⟨btick :: zwsp :: btick :: replaceTicks r2, ?_⟩
      rw [h.1]
      simp [replaceTicks, h.1, h.2.1, h.2.2]
    · exact ⟨replaceTicks (c2 :: c3 :: r2), by simp [replaceTicks, h]⟩

/-- `splitLines` never returns the empty list of lines. -/
theorem splitLines_ne_nil (s : List Char) : splitLines s ≠ [] := by
  match s with
  | [] => simp [splitLines]
  | c :: rest =>
    by_cases h : c = '\n'
    · simp [splitLines, h]
    · rcases hr : splitLines rest with _ | ⟨l, ls⟩ <;> simp [splitLines, h, hr]

/-- Splitting after a newline prepends an empty line. -/
theorem splitLines_cons_nl (t : List Char) : splitLines ('\n' :: t) = [] :: splitLines t := by
  simp [splitLines]

/-- Splitting after a non-newline character extends the first line. -/
theorem splitLines_cons_of_ne (c : Char) (t : List Char) (h : c ≠ '\n') :
    ∃ L0 Ls, splitLines t = L0 :: Ls ∧ splitLines (c :: t) = (c :: L0) :: Ls := by
  rcases ht : splitLines t with _ | ⟨L0, Ls⟩
  · exact absurd ht (splitLines_ne_nil t)
  · exact ⟨L0, Ls, rfl, by simp [splitLines, h, ht]⟩

/-- Splitting after a newline-free prefix extends the first line by it. -/
theorem splitLines_prepend (p : List Char) (t : List Char) (hp : '\n' ∉ p) :
    ∃ L0 Ls, splitLines t = L0 :: Ls ∧ splitLines (p ++ t) = (p ++ L0) :: Ls := by
  induction p with
  | nil =>
    rcases ht : splitLines t with _ | ⟨L0, Ls⟩
    · exact absurd ht (splitLines_ne_nil t)
    · exact ⟨L0, Ls, rfl, by simpa using ht⟩
  | cons c p' ihp =>
    have hc : c ≠ '\n' := fun h => hp (by simp [h])
    obtain ⟨L0, Ls, ht, hpt⟩ := ihp (fun h => hp (List.mem_cons_of_mem c h))
    obtain ⟨L0', Ls', h1, h2⟩ := splitLines_cons_of_ne c (p' ++ t) hc
    rw [hpt] at h1
    obtain ⟨ha, hb⟩ : L0' = p' ++ L0 ∧ Ls' = Ls := by
      constructor <;> injection h1 <;> simp_all
    rw [ha, hb] at h2
    exact ⟨L0, Ls, ht, by simpa using h2⟩

/-- A space at the front does not change whether a line is a fence delimiter. -/
theorem fence_cons_space (l : List Char) :
    isFenceDelimLine (' ' :: l) = isFenceDelimLine l := by
  simp [isFenceDelimLine, List.dropWhile]

/-- A line starting with a character that is neither a space nor a backtick is
not a fence delimiter. -/
theorem fence_cons_of_ne (c : Char) (l : List Char) (h1 : c ≠ ' ') (h2 : c ≠ btick) :
    isFenceDelimLine (c :: l) = false := by
  have hb : (btick == c) = false := by
    simp only [beq_eq_false_iff_ne, ne_eq]
    exact fun hh => h2 hh.symm
  simp [isFenceDelimLine, List.dropWhile, h1, List.isPrefixOf, hb]

/-- A line starting with a single backtick not followed by two more backticks
is not a fence delimiter. -/
theorem fence_bt_cons (l : List Char) (h : ¬ [btick, btick].isPrefixOf l = true) :
    isFenceDelimLine (btick :: l) = false := by
  have hdec : (decide (btick = ' ')) = false := by decide
  have hdw : (btick :: l).dropWhile (fun c => c = ' ') = btick :: l := by
    simp [List.dropWhile, hdec]
  unfold isFenceDelimLine
  rw [hdw]
  have hred : [btick, btick, btick].isPrefixOf (btick :: l) =
      [btick, btick].isPrefixOf l := by
    simp [List.isPrefixOf]
  rw [hred]
  simp only [Bool.not_eq_true] at h
  exact h

/-- Core invariant of the sanitizer: no line of `replaceTicks s` begins, after
leading spaces, with three consecutive backticks; moreover, if the first line
of the output starts with two backticks then so did the input. -/
theorem replaceTicks_fence_aux :
    ∀ n (s : List Char), s.length ≤ n →
      (∀ l ∈ splitLines (replaceTicks s), isFenceDelimLine l = false) ∧
      ([btick, btick].isPrefixOf (splitLines (replaceTicks s)).headI = true →
        [btick, btick].isPrefixOf s = true) := by
  intro n
  induction n with
  | zero =>
    intro s hs
    have hnil : s = [] := List.length_eq_zero.mp (Nat.le_zero.mp hs)
    subst hnil
    exact ⟨by decide, by decide⟩
  | succ n ih =>
    intro s hs
    match s with
    | [] => exact ⟨by decide, by decide⟩
    | c :: r =>
      by_cases hcb : c = btick
      · subst hcb
        match r with
        | [] => exact ⟨by decide, by decide⟩
        | [c2] =>
          have hrw : replaceTicks [btick, c2] = [btick, c2] := rfl
          rw [hrw]
          by_cases hc2 : c2 = '\n'
          · subst hc2; exact ⟨by decide, by decide⟩
          · obtain ⟨L0, Ls, e0, e1⟩ := splitLines_cons_of_ne c2 [] hc2
            have e0' : L0 = [] ∧ Ls = [] := by
              have e0s : ([[]] : List (List Char)) = L0 :: Ls := by
                rw [← e0]; rfl
              constructor <;> injection e0s <;> simp_all
            obtain ⟨rfl, rfl⟩ := e0'
            obtain ⟨L1, Ls1, f0, f1⟩ :=
              splitLines_cons_of_ne btick [c2] (by decide)
            rw [e1] at f0
            obtain ⟨rfl, rfl⟩ : L1 = [c2] ∧ Ls1 = [] := by
              constructor <;> injection f0 <;> simp_all
            rw [show ([btick, c2] : List Char) = btick :: [c2] from rfl, f1]
            constructor
            · intro l hl
              rcases List.mem_cons.mp hl with rfl | hl
              · exact fence_bt_cons [c2] (by simp [List.isPrefixOf])
              · simp at hl
            · intro h
              simp only [List.headI] at h
              simpa [List.isPrefixOf] using h
        | c2 :: c3 :: r3 =>
          by_cases h23 : c2 = btick ∧ c3 = btick
          · have hrw : replaceTicks (btick :: c2 :: c3 :: r3) =
                [btick, btick, zwsp, btick] ++ replaceTicks r3 := by
              simp [replaceTicks, h23.1, h23.2]
            rw [hrw]
            obtain ⟨L0, Ls, e0, e1⟩ :=
              splitLines_prepend [btick, btick, zwsp, btick] (replaceTicks r3) (by decide)
            rw [e1]
            have IH := ih r3 (by simp at hs ⊢; omega)
            constructor
            · intro l hl
              rcases List.mem_cons.mp hl with rfl | hl
              · have hsp : (btick = ' ') = False := by simp [btick]
                have hz : (btick == zwsp) = false := by decide
                simp [isFenceDelimLine, List.dropWhile, hsp, List.isPrefixOf, hz]
              · exact IH.1 l (by rw [e0]; exact List.mem_cons_of_mem _ hl)
            · intro _
              simp [List.isPrefixOf, h23.1]
          · have hnt0 : ¬(btick = btick ∧ c2 = btick ∧ c3 = btick) := by
              simpa using h23
            have hrw : replaceTicks (btick :: c2 :: c3 :: r3) =
                btick :: replaceTicks (c2 :: c3 :: r3) := by
              have hdef : replaceTicks (btick :: c2 :: c3 :: r3) =
                  if btick = btick ∧ c2 = btick ∧ c3 = btick then
                    btick :: btick :: zwsp :: btick :: replaceTicks r3
                  else btick :: replaceTicks (c2 :: c3 :: r3) := rfl
              rw [hdef, if_neg hnt0]
            rw [hrw]
            have IH := ih (c2 :: c3 :: r3) (by simp at hs ⊢; omega)
            obtain ⟨L0, Ls, e0, e1⟩ :=
              splitLines_cons_of_ne btick (replaceTicks (c2 :: c3 :: r3)) (by decide)
            rw [e1]
            have hL0 : [btick].isPrefixOf L0 = true → c2 = btick := by
              intro habs
              obtain ⟨t, ht⟩ := replaceTicks_head c2 (c3 :: r3)
              by_cases hc2nl : c2 = '\n'
              · rw [ht, hc2nl, splitLines_cons_nl] at e0
                have : L0 = [] := by injection e0 with e0a e0b; exact e0a.symm
                subst this
                simp [List.isPrefixOf] at habs
              · obtain ⟨L0', Ls', f0, f1⟩ := splitLines_cons_of_ne c2 t hc2nl
                rw [ht, f1] at e0
                have : L0 = c2 :: L0' := by injection e0 with e0a e0b; exact e0a.symm
                subst this
                simp only [List.isPrefixOf, Bool.and_eq_true, beq_iff_eq] at habs
                exact habs.1.symm
            constructor
            · intro l hl
              rcases List.mem_cons.mp hl with rfl | hl
              · apply fence_bt_cons
                intro habs
                have hc2 : c2 = btick := by
                  apply hL0
                  rcases L0 with _ | ⟨x, L0'⟩
                  · simp [List.isPrefixOf] at habs
                  · simp only [List.isPrefixOf, Bool.and_eq_true, beq_iff_eq] at habs ⊢
                    simp [habs.1]
                have hc3 : c3 ≠ btick := fun hc3x => h23 ⟨hc2, hc3x⟩
                subst hc2
                have hstep : replaceTicks (btick :: c3 :: r3) =
                    btick :: replaceTicks (c3 :: r3) := by
                  cases r3 with
                  | nil => rfl
                  | cons c4 r4 =>
                    have hnt : ¬(btick = btick ∧ c3 = btick ∧ c4 = btick) := by
                      simp [hc3]
                    have hdef : replaceTicks (btick :: c3 :: c4 :: r4) =
                        if btick = btick ∧ c3 = btick ∧ c4 = btick then
                          btick :: btick :: zwsp :: btick :: replaceTicks r4
                        else btick :: replaceTicks (c3 :: c4 :: r4) := rfl
                    rw [hdef, if_neg hnt]
                rw [hstep] at e0
                have hbt2 : ¬(btick = '\n') := by decide
                obtain ⟨L0', Ls', f0, f1⟩ :=
                  splitLines_cons_of_ne btick (replaceTicks (c3 :: r3)) hbt2
                rw [f1] at e0
                have hL0eq : L0 = btick :: L0' := by injection e0 with e0a e0b; exact e0a.symm
                subst hL0eq
                -- habs : [bt,bt] prefix of bt :: L0', so L0' starts with bt;
                -- but replaceTicks (c3 :: r3) starts with c3 ≠ bt
                obtain ⟨t2, ht2⟩ := replaceTicks_head c3 r3
                by_cases hc3nl : c3 = '\n'
                · rw [ht2, hc3nl, splitLines_cons_nl] at f0
                  have : L0' = [] := by injection f0 with f0a f0b; exact f0a.symm
                  subst this
                  simp [List.isPrefixOf] at habs
                · obtain ⟨L0'', Ls'', g0, g1⟩ := splitLines_cons_of_ne c3 t2 hc3nl
                  rw [ht2, g1] at f0
                  have : L0' = c3 :: L0'' := by injection f0 with f0a f0b; exact f0a.symm
                  subst this
                  simp only [List.isPrefixOf, Bool.and_eq_true, beq_iff_eq] at habs
                  exact hc3 habs.2.1.symm
              · exact IH.1 l (by rw [e0]; exact List.mem_cons_of_mem _ hl)
            · intro h
              simp only [List.headI] at h
              have hpre : [btick].isPrefixOf L0 = true := by
                simp only [List.isPrefixOf, Bool.and_eq_true, beq_iff_eq] at h
                rcases L0 with _ | ⟨x, L0'⟩
                · simp [List.isPrefixOf] at h
                · simp only [List.isPrefixOf, Bool.and_eq_true, beq_iff_eq] at h ⊢
                  simp [h.2.1]
              have hc2 := hL0 hpre
              simp [List.isPrefixOf, hc2]
      · rw [replaceTicks_cons_of_ne c r hcb]
        have IH := ih r (by simp at hs ⊢; omega)
        by_cases hnl : c = '\n'
        · subst hnl
          rw [splitLines_cons_nl]
          constructor
          · intro l hl
            rcases List.mem_cons.mp hl with rfl | hl
            · decide
            · exact IH.1 l hl
          · intro h
            simp [List.headI, List.isPrefixOf] at h
        · obtain ⟨L0, Ls, e0, e1⟩ := splitLines_cons_of_ne c (replaceTicks r) hnl
          rw [e1]
          constructor
          · intro l hl
            rcases List.mem_cons.mp hl with rfl | hl
            · by_cases hspc : c = ' '
              · subst hspc
                rw [fence_cons_space]
                exact IH.1 L0 (by rw [e0]; simp)
              · exact fence_cons_of_ne c L0 hspc hcb
            · exact IH.1 l (by rw [e0]; exact List.mem_cons_of_mem _ hl)
          · intro h
            simp only [List.headI, List.isPrefixOf, Bool.and_eq_true, beq_iff_eq] at h
            exact absurd h.1.symm hcb

/-- C5 counterexample: an excerpt consisting of five backticks is sanitized to
two backticks, a zero-width space, then three backticks — which still contains
a triple-backtick sequence.  The sanitized excerpt is exactly what the fence
of the rendered comment embeds, so the claim "the rendered body contains no
triple-backtick sequence originating from the excerpt" is false. -/
theorem sanitize_triple_backtick_counterexample :
    containsSub [btick, btick, btick]
      ( _sanitize_fence (List.replicate 5 btick)) = true := by decide

/-- C5 (amended): sanitization can leave a triple-backtick sequence in the
fence content (an excerpt with a run of five or more backticks), but no line
of the sanitized excerpt begins, after leading spaces, with three consecutive
backticks, so no excerpt line can act as a Markdown fence delimiter; and the
rendered body embeds the sanitized excerpt (when non-empty, as its own lines)
between the renderer's opening `fenceOpen` and closing `fenceClose` lines, so
the fence still terminates at the renderer's own closing fence. -/
theorem render_fence_structure (excerpt detail : List Char) (axes : List (List Char)) :
    (∀ l ∈ splitLines ( _sanitize_fence excerpt), isFenceDelimLine l = false) ∧
    ∃ pfx sfx, render_ai_review_comment excerpt detail axes =
      pfx ++ fenceOpen ++ '\n' ::
        ((if _sanitize_fence excerpt = [] then []
          else _sanitize_fence excerpt ++ ['\n']) ++ (fenceClose ++ sfx)) := by
  constructor
  · intro l hl
    exact (replaceTicks_fence_aux (stripWs excerpt).length (stripWs excerpt)
      (le_refl _)).1 l hl
  · refine ⟨hdrLine ++ '\n' ::
        ((if axesSlot axes = [] then [] else axesSlot axes ++ ['\n']) ++
          (excerptLabel ++ ['\n'])),
      (if stripWs detail = [] then [] else '\n' :: stripWs detail), ?_⟩
    have hh : hdrLine.isEmpty = false := by decide
    have hel : excerptLabel.isEmpty = false := by decide
    have hfo : fenceOpen.isEmpty = false := by decide
    have hfc : fenceClose.isEmpty = false := by decide
    unfold render_ai_review_comment
    by_cases hax : axesSlot axes = [] <;>
      by_cases hex : _sanitize_fence excerpt = [] <;>
        by_cases hdt : stripWs detail = []
    · simp [hax, hex, hdt, hh, hel, hfo, hfc, joinSep, List.append_assoc]
    · simp [hax, hex, hdt, hh, hel, hfo, hfc, joinSep, List.append_assoc,
        List.isEmpty_eq_false.mpr hdt]
    · simp [hax, hex, hdt, hh, hel, hfo, hfc, joinSep, List.append_assoc,
        List.isEmpty_eq_false.mpr hex]
    · simp [hax, hex, hdt, hh, hel, hfo, hfc, joinSep, List.append_assoc,
        List.isEmpty_eq_false.mpr hex, List.isEmpty_eq_false.mpr hdt]
    · simp [hax, hex, hdt, hh, hel, hfo, hfc, joinSep, List.append_assoc,
        List.isEmpty_eq_false.mpr hax]
    · simp [hax, hex, hdt, hh, hel, hfo, hfc, joinSep, List.append_assoc,
        List.isEmpty_eq_false.mpr hax, List.isEmpty_eq_false.mpr hdt]
    · simp [hax, hex, hdt, hh, hel, hfo, hfc, joinSep, List.append_assoc,
        List.isEmpty_eq_false.mpr hax, List.isEmpty_eq_false.mpr hex]
    · simp [hax, hex, hdt, hh, hel, hfo, hfc, joinSep, List.append_assoc,
        List.isEmpty_eq_false.mpr hax, List.isEmpty_eq_false.mpr hex,
        List.isEmpty_eq_false.mpr hdt]

/-- An entry of the result store: a file name and its modification time
(`st_mtime`, modelled as an exact rational). -/
structure FileEntry where
  name : List Char
  mtime : ℚ

/-- Membership in `RESULT_DIR.glob(f"{stem}__*.json")`: the name is
`stem ++ "__" ++ mid ++ ".json"` where `mid` contains no path separator. -/
def globMatch (stem name : List Char) : Bool :=
  (stem ++ ['_', '_']).isPrefixOf name &&
    (".json".toList).isSuffixOf (name.drop (stem ++ ['_', '_']).length) &&
    ((name.drop (stem ++ ['_', '_']).length).take
      ((name.drop (stem ++ ['_', '_']).length).length - 5)).all (fun c => c ≠ '/')

/-- `name.split("__", 1)[1]`: the part after the first `"__"`, or `none`
(the `IndexError` caught by the source) when no `"__"` occurs. -/
def splitOnceDunder : List Char → Option (List Char)
  | [] => none
  | c :: rest =>
    match rest with
    | [] => none
    | c2 :: rest2 =>
      if c = '_' ∧ c2 = '_' then some rest2 else splitOnceDunder rest

/-- `post.rsplit(".", 1)[0]`: everything before the last dot, or the whole
string when there is no dot. -/
def rsplitDotHead (s : List Char) : List Char :=
  if '.' ∈ s then ((s.reverse.dropWhile (fun c => c ≠ '.')).drop 1).reverse else s

/-- The model name parsed from a storage key under the `<stem>__<model>`
convention with the extension stripped; `none` when the key does not parse. -/
def parseModel (name : List Char) : Option (List Char) :=
  (splitOnceDunder name).map rsplitDotHead

/-- Stable insertion for a descending-mtime sort: an entry moves past exactly
the entries with strictly greater mtime, so equal mtimes keep their original
relative order, as Python's stable `sorted(..., reverse=True)` does. -/
def insertByMtime (e : FileEntry) : List FileEntry → List FileEntry
  | [] => [e]
  | x :: xs => if e.mtime < x.mtime then x :: insertByMtime e xs else e :: x :: xs

/-- `sorted(candidates, key=st_mtime, reverse=True)` as a stable insertion
sort. -/
def sortByMtime : List FileEntry → List FileEntry
  | [] => []
  | e :: rest => insertByMtime e (sortByMtime rest)

/-- The `latest_per_model` walk: scan the (descending-mtime) candidates,
keep the first entry per parsed model in insertion order, skip unparsable
names and models already kept. -/
def selectPerModel : List FileEntry → List (List Char × List Char) →
    List (List Char × List Char)
  | [], acc => acc
  | e :: rest, acc =>
    match parseModel e.name with
    | none => selectPerModel rest acc
    | some m =>
      if m ∈ acc.map Prod.fst then selectPerModel rest acc
      else selectPerModel rest (acc ++ [(m, e.name)])

/-- `pick_latest_result_jsons_for_stem` over a modelled directory listing:
glob for `<stem>__*.json`, sort by mtime descending, keep the newest entry
per model, return the chosen names. -/
def pick_latest_result_jsons_for_stem (stem : List Char) (dir : List FileEntry) :
    List (List Char) :=
  (selectPerModel (sortByMtime (dir.filter (fun e => globMatch stem e.name))) []).map
    Prod.snd

/-- Insertion keeps the same entries. -/
theorem insertByMtime_perm (e : FileEntry) (l : List FileEntry) :
    (insertByMtime e l).Perm (e :: l) := by
  induction l with
  | nil => exact List.Perm.refl _
  | cons x xs ih =>
    by_cases h : e.mtime < x.mtime
    · simp only [insertByMtime, if_pos h]
      exact (List.Perm.cons x ih).trans (List.Perm.swap e x xs)
    · simp only [insertByMtime, if_neg h]
      exact List.Perm.refl _

/-- Sorting keeps the same entries. -/
theorem sortByMtime_perm (l : List FileEntry) : (sortByMtime l).Perm l := by
  induction l with
  | nil => exact List.Perm.refl _
  | cons e rest ih =>
    exact (insertByMtime_perm e (sortByMtime rest)).trans (List.Perm.cons e ih)

/-- Insertion preserves the descending-mtime order. -/
theorem insertByMtime_sorted (e : FileEntry) (l : List FileEntry)
    (h : List.Pairwise (fun a b => b.mtime ≤ a.mtime) l) :
    List.Pairwise (fun a b => b.mtime ≤ a.mtime) (insertByMtime e l) := by
  induction l with
  | nil => simp [insertByMtime]
  | cons x xs ih =>
    rcases List.pairwise_cons.mp h with ⟨hx, hxs⟩
    by_cases hlt : e.mtime < x.mtime
    · simp only [insertByMtime, if_pos hlt]
      refine List.pairwise_cons.mpr ⟨?_, ih hxs⟩
      intro y hy
      rcases List.mem_cons.mp ((insertByMtime_perm e xs).mem_iff.mp hy) with rfl | hy'
      · exact le_of_lt hlt
      · exact hx y hy'
    · simp only [insertByMtime, if_neg hlt]
      refine List.pairwise_cons.mpr ⟨?_, h⟩
      intro y hy
      rcases List.mem_cons.mp hy with rfl | hy'
      · exact le_of_not_lt hlt
      · exact le_trans (hx y hy') (le_of_not_lt hlt)

/-- The sort output is in descending-mtime order. -/
theorem sortByMtime_sorted (l : List FileEntry) :
    List.Pairwise (fun a b => b.mtime ≤ a.mtime) (sortByMtime l) := by
  induction l with
  | nil => simp [sortByMtime]
  | cons e rest ih => exact insertByMtime_sorted e (sortByMtime rest) ih

/-- `splitOnceDunder` succeeds on any extension of a string it succeeds on. -/
theorem splitOnceDunder_cons_isSome (c : Char) (ys : List Char)
    (h : (splitOnceDunder ys).isSome) : (splitOnceDunder (c :: ys)).isSome := by
  cases ys with
  | nil => simp [splitOnceDunder] at h
  | cons c2 rest2 =>
    by_cases h12 : c = '_' ∧ c2 = '_'
    · simp [splitOnceDunder, h12]
    · simpa [splitOnceDunder, h12] using h

/-- Keys matched by the `<stem>__*.json` glob always parse: they contain the
`"__"` separator by construction. -/
theorem globMatch_parseModel (stem name : List Char)
    (h : globMatch stem name = true) : (parseModel name).isSome := by
  have key : ∀ (st t : List Char), (splitOnceDunder (st ++ '_' :: '_' :: t)).isSome := by
    intro st
    induction st with
    | nil => intro t; simp [splitOnceDunder]
    | cons c st' ih => intro t; exact splitOnceDunder_cons_isSome c _ (ih t)
  simp only [globMatch, Bool.and_eq_true] at h
  obtain ⟨t, ht⟩ := List.isPrefixOf_iff_prefix.mp h.1.1
  have hname : name = stem ++ '_' :: '_' :: t := by
    rw [← ht]; simp
  rw [parseModel, hname]
  simpa using key stem t

/-- Full characterization of the `latest_per_model` walk over a
descending-mtime candidate list: the result extends the accumulator, its
models are pairwise distinct, every entry added from the candidates is the
first occurrence of its model (hence of maximal mtime), and every parsable
candidate's model appears in the result. -/
theorem selectPerModel_spec :
    ∀ (cs : List FileEntry) (acc : List (List Char × List Char)),
      List.Pairwise (fun a b => b.mtime ≤ a.mtime) cs →
      (acc.map Prod.fst).Nodup →
      (∃ D, selectPerModel cs acc = acc ++ D) ∧
      ((selectPerModel cs acc).map Prod.fst).Nodup ∧
      (∀ p ∈ selectPerModel cs acc, p ∈ acc ∨
        (parseModel p.2 = some p.1 ∧ p.1 ∉ acc.map Prod.fst ∧
          ∃ ek ∈ cs, ek.name = p.2 ∧
            ∀ e ∈ cs, parseModel e.name = some p.1 → e.mtime ≤ ek.mtime)) ∧
      (∀ e ∈ cs, ∀ m, parseModel e.name = some m →
        m ∈ (selectPerModel cs acc).map Prod.fst) := by
  intro cs
  induction cs with
  | nil =>
    intro acc hsort hacc
    refine ⟨⟨[], by simp [selectPerModel]⟩,
      by simpa [selectPerModel] using hacc, ?_, by simp⟩
    intro p hp
    exact Or.inl (by simpa [selectPerModel] using hp)
  | cons e rest ih =>
    intro acc hsort hacc
    rcases List.pairwise_cons.mp hsort with ⟨hmax, hrest⟩
    rcases hpm : parseModel e.name with _ | m
    · have hstep : selectPerModel (e :: rest) acc = selectPerModel rest acc := by
        simp [selectPerModel, hpm]
      rw [hstep]
      obtain ⟨⟨D, hD⟩, hnodup, hmem, hcomp⟩ := ih acc hrest hacc
      refine ⟨⟨D, hD⟩, hnodup, ?_, ?_⟩
      · intro p hp
        rcases hmem p hp with hl | ⟨h1, h2, ek, hek, hekn, hmax'⟩
        · exact Or.inl hl
        · refine Or.inr ⟨h1, h2, ek, List.mem_cons_of_mem e hek, hekn, ?_⟩
          intro e' he' hpe'
          rcases List.mem_cons.mp he' with rfl | he''
          · rw [hpm] at hpe'; cases hpe'
          · exact hmax' e' he'' hpe'
      · intro e' he' m' hm'
        rcases List.mem_cons.mp he' with rfl | he''
        · rw [hpm] at hm'; cases hm'
        · exact hcomp e' he'' m' hm'
    · by_cases hin : m ∈ acc.map Prod.fst
      · have hstep : selectPerModel (e :: rest) acc = selectPerModel rest acc := by
          simp [selectPerModel, hpm, hin]
        rw [hstep]
        obtain ⟨⟨D, hD⟩, hnodup, hmem, hcomp⟩ := ih acc hrest hacc
        refine ⟨⟨D, hD⟩, hnodup, ?_, ?_⟩
        · intro p hp
          rcases hmem p hp with hl | ⟨h1, h2, ek, hek, hekn, hmax'⟩
          · exact Or.inl hl
          · refine Or.inr ⟨h1, h2, ek, List.mem_cons_of_mem e hek, hekn, ?_⟩
            intro e' he' hpe'
            rcases List.mem_cons.mp he' with rfl | he''
            · rw [hpm] at hpe'
              injection hpe' with hh
              exact absurd (hh ▸ hin) h2
            · exact hmax' e' he'' hpe'
        · intro e' he' m' hm'
          rcases List.mem_cons.mp he' with rfl | he''
          · rw [hpm] at hm'
            injection hm' with hh
            subst hh
            rw [hD, List.map_append]
            exact List.mem_append.mpr (Or.inl hin)
          · exact hcomp e' he'' m' hm'
      · have hstep : selectPerModel (e :: rest) acc =
            selectPerModel rest (acc ++ [(m, e.name)]) := by
          simp [selectPerModel, hpm, hin]
        rw [hstep]
        have hacc' : ((acc ++ [(m, e.name)]).map Prod.fst).Nodup := by
          rw [List.map_append]
          rw [List.nodup_append]
          refine ⟨hacc, by simp, ?_⟩
          intro x hx hx2
          simp only [List.map_cons, List.map_nil, List.mem_singleton] at hx2
          subst hx2
          exact hin hx
        obtain ⟨⟨D, hD⟩, hnodup, hmem, hcomp⟩ := ih (acc ++ [(m, e.name)]) hrest hacc'
        refine ⟨⟨(m, e.name) :: D, by rw [hD]; simp⟩, hnodup, ?_, ?_⟩
        · intro p hp
          rcases hmem p hp with hl | ⟨h1, h2, ek, hek, hekn, hmax'⟩
          · rcases List.mem_append.mp hl with hl1 | hl2
            · exact Or.inl hl1
            · have hp2 : p = (m, e.name) := by simpa using hl2
              subst hp2
              refine Or.inr ⟨by simpa using hpm, hin, e, List.mem_cons_self e rest,
                rfl, ?_⟩
              intro e' he' hpe'
              rcases List.mem_cons.mp he' with rfl | he''
              · exact le_refl _
              · exact hmax e' he''
          · refine Or.inr ⟨h1, ?_, ek, List.mem_cons_of_mem e hek, hekn, ?_⟩
            · intro hcon
              exact h2 (by simp [hcon])
            · intro e' he' hpe'
              rcases List.mem_cons.mp he' with rfl | he''
              · rw [hpm] at hpe'
                injection hpe' with hh
                refine absurd ?_ h2
                rw [List.map_append]
                exact List.mem_append.mpr (Or.inr (by simp [← hh]))
              · exact hmax' e' he'' hpe'
        · intro e' he' m' hm'
          rcases List.mem_cons.mp he' with rfl | he''
          · rw [hpm] at hm'
            injection hm' with hh
            subst hh
            rw [hD, List.map_append, List.map_append]
            exact List.mem_append.mpr (Or.inl (List.mem_append.mpr (Or.inr (by simp))))
          · exact hcomp e' he'' m' hm'

/-- C4: the Result Selector returns at most one key per model (the parsed
models of the returned keys are pairwise distinct); each returned key is a
glob-matched entry of the store whose mtime is maximal among the glob-matched
entries with the same parsed model; every glob-matched entry's model is
represented; and entries whose names do not parse under the
`<stem>__<model>` convention are discarded silently, with no effect on the
selection for the remaining keys. -/
theorem pick_latest_one_per_model (stem : List Char) (dir : List FileEntry) :
    ((pick_latest_result_jsons_for_stem stem dir).map parseModel).Nodup ∧
    (∀ k ∈ pick_latest_result_jsons_for_stem stem dir,
      ∃ ek ∈ dir, ek.name = k ∧ globMatch stem k = true ∧
        ∀ e ∈ dir, globMatch stem e.name = true →
          parseModel e.name = parseModel k → e.mtime ≤ ek.mtime) ∧
    (∀ e ∈ dir, globMatch stem e.name = true →
      ∃ k ∈ pick_latest_result_jsons_for_stem stem dir,
        parseModel k = parseModel e.name) ∧
    pick_latest_result_jsons_for_stem stem dir =
      pick_latest_result_jsons_for_stem stem
        (dir.filter (fun e => (parseModel e.name).isSome)) := by
  have hperm := sortByMtime_perm (dir.filter (fun e => globMatch stem e.name))
  have hsort := sortByMtime_sorted (dir.filter (fun e => globMatch stem e.name))
  obtain ⟨⟨D, hD⟩, hnodup, hmem, hcomp⟩ :=
    selectPerModel_spec (sortByMtime (dir.filter (fun e => globMatch stem e.name)))
      [] hsort (by simp)
  have hR : ∀ p ∈ selectPerModel
      (sortByMtime (dir.filter (fun e => globMatch stem e.name))) [],
      parseModel p.2 = some p.1 ∧
      ∃ ek ∈ sortByMtime (dir.filter (fun e => globMatch stem e.name)),
        ek.name = p.2 ∧
        ∀ e ∈ sortByMtime (dir.filter (fun e => globMatch stem e.name)),
          parseModel e.name = some p.1 → e.mtime ≤ ek.mtime := by
    intro p hp
    rcases hmem p hp with hl | ⟨h1, -, hrest⟩
    · simp at hl
    · exact ⟨h1, hrest⟩
  refine ⟨?_, ?_, ?_, ?_⟩
  · rw [pick_latest_result_jsons_for_stem, List.map_map]
    have heq : (selectPerModel
        (sortByMtime (dir.filter (fun e => globMatch stem e.name))) []).map
          (parseModel ∘ Prod.snd) =
        (selectPerModel
          (sortByMtime (dir.filter (fun e => globMatch stem e.name))) []).map
          (fun p => some p.1) :=
      List.map_congr_left (fun p hp => (hR p hp).1)
    rw [heq]
    have heq2 : (selectPerModel
        (sortByMtime (dir.filter (fun e => globMatch stem e.name))) []).map
          (fun p => some p.1) =
        ((selectPerModel
          (sortByMtime (dir.filter (fun e => globMatch stem e.name))) []).map
            Prod.fst).map some := by
      rw [List.map_map]; rfl
    rw [heq2]
    exact hnodup.map (Option.some_injective _)
  · intro k hk
    obtain ⟨p, hpR, rfl⟩ := List.mem_map.mp hk
    obtain ⟨h1, ek, hekcs, hekname, hmax'⟩ := hR p hpR
    have hekfil := hperm.mem_iff.mp hekcs
    have hekdir := (List.mem_filter.mp hekfil).1
    have hekglob := (List.mem_filter.mp hekfil).2
    refine ⟨ek, hekdir, hekname, by rw [← hekname]; exact hekglob, ?_⟩
    intro e hedir heglob hepm
    have hecs := hperm.mem_iff.mpr (List.mem_filter.mpr ⟨hedir, heglob⟩)
    exact hmax' e hecs (by rw [hepm]; exact h1)
  · intro e hedir heglob
    have hecs := hperm.mem_iff.mpr (List.mem_filter.mpr ⟨hedir, heglob⟩)
    obtain ⟨m, hm⟩ := Option.isSome_iff_exists.mp (globMatch_parseModel stem e.name heglob)
    obtain ⟨p, hpR, hpfst⟩ := List.mem_map.mp (hcomp e hecs m hm)
    refine ⟨p.2, List.mem_map_of_mem Prod.snd hpR, ?_⟩
    rw [(hR p hpR).1, hpfst, hm]
  · have hfil : ∀ d : List FileEntry,
        (d.filter (fun e => (parseModel e.name).isSome)).filter
          (fun e => globMatch stem e.name) =
        d.filter (fun e => globMatch stem e.name) := by
      intro d
      induction d with
      | nil => rfl
      | cons x xs ihd =>
        by_cases hg : globMatch stem x.name = true
        · have hp : (parseModel x.name).isSome = true :=
            globMatch_parseModel stem x.name hg
          simp [List.filter_cons, hg, hp, ihd]
        · by_cases hp : (parseModel x.name).isSome = true <;>
            simp [List.filter_cons, hg, hp, ihd]
    rw [pick_latest_result_jsons_for_stem, pick_latest_result_jsons_for_stem, hfil dir]

/-- The spec's worked example: an older and a newer `gpt-5` record plus one
`gpt-4.1` record yield exactly two keys, the newest per model. -/
theorem pick_latest_spec_example :
    pick_latest_result_jsons_for_stem "se24g2".toList
      [⟨"se24g2__gpt-5.json".toList, 1⟩, ⟨"se24g2__gpt-4.1.json".toList, 2⟩,
       ⟨"se24g2__gpt-5.json".toList, 3⟩] =
      ["se24g2__gpt-5.json".toList, "se24g2__gpt-4.1.json".toList] := by decide

/-- Python's `a or b or []` / `a or b or ""` over optional lists (absent keys
are `none`, empty lists/strings are falsy). -/
def pyOr {α : Type} (a b : Option (List α)) : List α :=
  match a with
  | some (x :: xs) => x :: xs
  | _ =>
    match b with
    | some (y :: ys) => y :: ys
    | _ => []

/-- A review item as read from a result JSON, with the duck-typed key pairs
(`line` holds the excerpt text, `comment`/`detail` the body,
`axis`/`axes` the labels) and the optional explicit `lineno`. -/
structure ReviewItem where
  line : Option (List Char)
  comment : Option (List Char)
  detail : Option (List Char)
  axis : Option (List (List Char))
  axes : Option (List (List Char))
  lineno : Option Int
deriving DecidableEq

/-- An inline comment accumulated by `main` (path, line, body). -/
structure InlineComment where
  path : List Char
  line : Int
  body : List Char
deriving DecidableEq

/-- Per-item processing of `main`'s loop: compute the stripped excerpt and
the `comment or detail` body; drop the item if either is empty; otherwise
pick the line number — the explicit `lineno` when present and truthy
(non-zero), else the resolver's answer, else 1 — and render the body. -/
def processItem (disk_lines : List (List Char)) (path : List Char)
    (it : ReviewItem) : Option InlineComment :=
  if stripWs (pyOr it.line none) = [] ∨ pyOr it.comment it.detail = [] then none
  else
    some ⟨path,
      (match it.lineno with
       | some n =>
         if n = 0 then
           ((find_lineno_by_excerpt disk_lines
              (stripWs (pyOr it.line none))).getD 1 : Nat)
         else n
       | none =>
         ((find_lineno_by_excerpt disk_lines
            (stripWs (pyOr it.line none))).getD 1 : Nat)),
      render_ai_review_comment (stripWs (pyOr it.line none))
        (pyOr it.comment it.detail) (pyOr it.axis it.axes)⟩

/-- The inline comments contributed by one record's item list. -/
def itemsToComments (disk_lines : List (List Char)) (path : List Char)
    (items : List ReviewItem) : List InlineComment :=
  items.filterMap (processItem disk_lines path)

/-- A result record as read from a result JSON (duck-typed key pairs). -/
structure ResultRecord where
  overall : Option (List Char)
  summary : Option (List Char)
  review_items : Option (List ReviewItem)
  comments : Option (List ReviewItem)

/-- The labelled overall chunk a record contributes (zero or one). -/
def recordOverallChunks (path : List Char) (r : ResultRecord) : List (List Char) :=
  if pyOr r.overall r.summary = [] then []
  else ["**".toList ++ path ++ "**".toList ++ '\n' :: pyOr r.overall r.summary]

/-- The payload entry built from an accumulated inline comment
(`side` is always `"RIGHT"`). -/
structure ReviewPayload where
  path : List Char
  line : Int
  side : List Char
  body : List Char
deriving DecidableEq

/-- The payload re-wrap in `main`'s final loop. -/
def toPayload (c : InlineComment) : ReviewPayload :=
  ⟨c.path, c.line, "RIGHT".toList, c.body⟩

/-- `MAX_OVERALL_LEN`. -/
def MAX_OVERALL_LEN : Nat := 4000

/-- `MAX_INLINE`. -/
def MAX_INLINE : Nat := 80

/-- Batch finalization: join the overall chunks with blank lines and
truncate to `MAX_OVERALL_LEN` characters; keep the first `MAX_INLINE`
inline comments, re-wrapped as payload entries in order. -/
def finalizeBatch (overall_chunks : List (List Char))
    (inline_comments : List InlineComment) : List Char × List ReviewPayload :=
  (if overall_chunks = [] then []
   else (joinSep ['\n', '\n'] overall_chunks).take MAX_OVERALL_LEN,
   (inline_comments.take MAX_INLINE).map toPayload)

/-- C6: batch finalization joins the overall chunks with double newlines and
truncates to at most `MAX_OVERALL_LEN = 4000` characters (a prefix of the
full join), and truncates the inline sequence to its first
`MAX_INLINE = 80` entries in the order produced, with no re-sorting: the
`i`-th payload entry is the re-wrap of the `i`-th accumulated comment. -/
theorem finalize_batch_caps (chunks : List (List Char))
    (inlines : List InlineComment) :
    (finalizeBatch chunks inlines).1 =
      (joinSep ['\n', '\n'] chunks).take MAX_OVERALL_LEN ∧
    (finalizeBatch chunks inlines).1.length ≤ 4000 ∧
    (finalizeBatch chunks inlines).1 <+: joinSep ['\n', '\n'] chunks ∧
    (finalizeBatch chunks inlines).2 = (inlines.take MAX_INLINE).map toPayload ∧
    (finalizeBatch chunks inlines).2.length = min 80 inlines.length ∧
    (80 ≤ inlines.length → (finalizeBatch chunks inlines).2.length = 80) ∧
    ∀ i, i < 80 →
      (finalizeBatch chunks inlines).2.get? i =
        (inlines.get? i).map toPayload := by
  have h1 : (finalizeBatch chunks inlines).1 =
      (joinSep ['\n', '\n'] chunks).take MAX_OVERALL_LEN := by
    by_cases h : chunks = [] <;> simp [finalizeBatch, h, joinSep]
  refine ⟨h1, ?_, ?_, rfl, ?_, ?_, ?_⟩
  · rw [h1, MAX_OVERALL_LEN]
    simp [List.length_take]
  · rw [h1]
    exact List.take_prefix _ _
  · simp [finalizeBatch, MAX_INLINE, List.length_take, Nat.min_comm]
  · intro h80
    simp [finalizeBatch, MAX_INLINE, List.length_take]
    omega
  · intro i hi
    simp [finalizeBatch, MAX_INLINE, List.get?_take, hi, List.get?_map]

/-- The resolver only ever returns 1-based indices. -/
theorem find_lineno_pos (lines : List (List Char)) (excerpt : List Char) (k : Nat)
    (h : find_lineno_by_excerpt lines excerpt = some k) : 1 ≤ k := by
  by_cases h0 : stripWs excerpt = []
  · rw [show find_lineno_by_excerpt lines excerpt = none by
      simp [find_lineno_by_excerpt, find_lineno_by_excerpt_sim, h0]] at h
    cases h
  · rcases hfirst : substrFirst (stripWs excerpt) lines 1 with _ | j
    · rcases fuzzyLoop_spec simScore (normWs (stripWs excerpt)) lines 1 none 0 with
        ⟨hr, -⟩ | ⟨pre, ln, post, heq, hr, -, -, -⟩
      · rw [show find_lineno_by_excerpt lines excerpt = none by
          unfold find_lineno_by_excerpt find_lineno_by_excerpt_sim
          rw [if_neg h0, hfirst, hr]] at h
        cases h
      · by_cases hacc : mkRat 3 5 ≤ simScore (normWs (stripWs excerpt)) (normWs ln)
        · have hval : find_lineno_by_excerpt lines excerpt = some (1 + pre.length) := by
            unfold find_lineno_by_excerpt find_lineno_by_excerpt_sim
            rw [if_neg h0, hfirst, hr]
            simp [hacc]
          rw [hval] at h
          injection h with hk
          omega
        · rw [show find_lineno_by_excerpt lines excerpt = none by
            unfold find_lineno_by_excerpt find_lineno_by_excerpt_sim
            rw [if_neg h0, hfirst, hr]
            simp [hacc]] at h
          cases h
    · obtain ⟨pre, ln, post, -, -, -, rfl⟩ :=
        (substrFirst_eq_some_iff _ lines 1 j).mp hfirst
      have hval : find_lineno_by_excerpt lines excerpt = some (1 + pre.length) := by
        unfold find_lineno_by_excerpt find_lineno_by_excerpt_sim
        rw [if_neg h0, hfirst]
      rw [hval] at h
      injection h with hk
      omega

/-- C7: an item with an empty (after stripping) excerpt or an empty
`comment or detail` body is discarded: it yields no inline comment and
removing it leaves the record's contribution unchanged, while items with
non-empty excerpt and body in the same record are still processed and their
comments appear in the output. -/
theorem empty_items_discarded (disk_lines : List (List Char)) (path : List Char)
    (items₁ items₂ : List ReviewItem) (bad : ReviewItem)
    (hbad : stripWs (pyOr bad.line none) = [] ∨ pyOr bad.comment bad.detail = []) :
    processItem disk_lines path bad = none ∧
    itemsToComments disk_lines path (items₁ ++ bad :: items₂) =
      itemsToComments disk_lines path (items₁ ++ items₂) ∧
    ∀ it ∈ items₁ ++ items₂,
      stripWs (pyOr it.line none) ≠ [] → pyOr it.comment it.detail ≠ [] →
      ∃ c, processItem disk_lines path it = some c ∧
        c ∈ itemsToComments disk_lines path (items₁ ++ bad :: items₂) := by
  have hnone : processItem disk_lines path bad = none := by
    simp [processItem, hbad]
  refine ⟨hnone, ?_, ?_⟩
  · rw [itemsToComments, itemsToComments, List.filterMap_append, List.filterMap_append,
      List.filterMap_cons_none hnone]
  · intro it hit hex hdt
    have hsome : processItem disk_lines path it =
        some ⟨path,
          (match it.lineno with
           | some n =>
             if n = 0 then
               ((find_lineno_by_excerpt disk_lines
                  (stripWs (pyOr it.line none))).getD 1 : Nat)
             else n
           | none =>
             ((find_lineno_by_excerpt disk_lines
                (stripWs (pyOr it.line none))).getD 1 : Nat)),
          render_ai_review_comment (stripWs (pyOr it.line none))
            (pyOr it.comment it.detail) (pyOr it.axis it.axes)⟩ := by
      rw [processItem, if_neg (by simp [hex, hdt])]
    refine ⟨_, hsome, ?_⟩
    rw [itemsToComments]
    apply List.mem_filterMap.mpr
    refine ⟨it, ?_, hsome⟩
    rcases List.mem_append.mp hit with h1 | h2
    · exact List.mem_append.mpr (Or.inl h1)
    · exact List.mem_append.mpr (Or.inr (List.mem_cons_of_mem bad h2))

theorem empty_items_discarded_witness :
    (stripWs (pyOr (some "  ".toList) none) = [] ∨
      pyOr (some "c".toList) none = []) ∧
    (processItem ["hello".toList] "p".toList
        ⟨some "  ".toList, some "c".toList, none, none, none, none⟩ = none ∧
      itemsToComments ["hello".toList] "p".toList
        ([⟨some "hello".toList, some "ok".toList, none, none, none, some 7⟩] ++
          ⟨some "  ".toList, some "c".toList, none, none, none, none⟩ ::
            ([] : List ReviewItem)) =
        itemsToComments ["hello".toList] "p".toList
          ([⟨some "hello".toList, some "ok".toList, none, none, none, some 7⟩] ++
            ([] : List ReviewItem)) ∧
      ∀ it ∈ [⟨some "hello".toList, some "ok".toList, none, none, none, some 7⟩] ++
          ([] : List ReviewItem),
        stripWs (pyOr it.line none) ≠ [] → pyOr it.comment it.detail ≠ [] →
        ∃ c, processItem ["hello".toList] "p".toList it = some c ∧
          c ∈ itemsToComments ["hello".toList] "p".toList
            ([⟨some "hello".toList, some "ok".toList, none, none, none, some 7⟩] ++
              ⟨some "  ".toList, some "c".toList, none, none, none, none⟩ ::
                ([] : List ReviewItem))) :=
  ⟨Or.inl (by decide),
    empty_items_discarded ["hello".toList] "p".toList
      [⟨some "hello".toList, some "ok".toList, none, none, none, some 7⟩] []
      ⟨some "  ".toList, some "c".toList, none, none, none, none⟩
      (Or.inl (by decide))⟩

/-- C3 counterexample: a surviving item whose explicit `lineno` is the truthy
integer `-3` produces an inline comment with line number `-3`, which is not a
positive integer — the code passes explicit linenos through unchecked. -/
theorem inline_lineno_not_always_positive :
    ((processItem [] "p".toList
        ⟨some "x".toList, some "d".toList, none, none, none, some (-3)⟩).map
      InlineComment.line = some (-3)) ∧
    ¬ ∀ c : InlineComment,
        (processItem [] "p".toList
          ⟨some "x".toList, some "d".toList, none, none, none, some (-3)⟩ = some c) →
        0 < c.line := by
  constructor
  · decide
  · intro hall
    have := hall ⟨"p".toList, -3,
      render_ai_review_comment "x".toList "d".toList []⟩ (by decide)
    simp at this

/-- C3 (amended): a surviving item always yields an inline comment (never
dropped); its line number is the explicit `lineno` whenever that is present
and truthy (non-zero), and otherwise the resolver's answer with a fallback
of 1, which is always positive; explicit linenos are passed through as-is,
so the line number is positive whenever the supplied linenos are
non-negative. -/
theorem inline_comment_lineno_policy (disk_lines : List (List Char))
    (path : List Char) (it : ReviewItem)
    (hex : stripWs (pyOr it.line none) ≠ [])
    (hdt : pyOr it.comment it.detail ≠ []) :
    ∃ c, processItem disk_lines path it = some c ∧ c.path = path ∧
      (∀ n : Int, it.lineno = some n → n ≠ 0 → c.line = n) ∧
      ((it.lineno = none ∨ it.lineno = some 0) →
        c.line = ((find_lineno_by_excerpt disk_lines
          (stripWs (pyOr it.line none))).getD 1 : Nat) ∧ 0 < c.line) ∧
      ((∀ n : Int, it.lineno = some n → 0 ≤ n) → 0 < c.line) := by
  have hresN : 0 < (find_lineno_by_excerpt disk_lines
      (stripWs (pyOr it.line none))).getD 1 := by
    rcases hf : find_lineno_by_excerpt disk_lines (stripWs (pyOr it.line none)) with _ | k
    · simp
    · have := find_lineno_pos disk_lines (stripWs (pyOr it.line none)) k hf
      simpa using this
  have hsome : processItem disk_lines path it =
      some ⟨path,
        (match it.lineno with
         | some n =>
           if n = 0 then
             ((find_lineno_by_excerpt disk_lines
                (stripWs (pyOr it.line none))).getD 1 : Nat)
           else n
         | none =>
           ((find_lineno_by_excerpt disk_lines
              (stripWs (pyOr it.line none))).getD 1 : Nat)),
        render_ai_review_comment (stripWs (pyOr it.line none))
          (pyOr it.comment it.detail) (pyOr it.axis it.axes)⟩ := by
    rw [processItem, if_neg (by simp [hex, hdt])]
  refine ⟨_, hsome, rfl, ?_, ?_, ?_⟩
  · intro n hn hn0
    simp only [hn]
    simp [hn0]
  · intro hcase
    rcases hcase with hn | hn <;> simp only [hn] <;> simp <;> exact hresN
  · intro hpos
    rcases hn : it.lineno with _ | n
    · simp only [hn]
      simpa using hresN
    · by_cases hn0 : n = 0
      · subst hn0
        simp only [hn]
        simpa using hresN
      · have := hpos n hn
        simp only [hn]
        simp [hn0]
        omega

theorem inline_comment_lineno_policy_witness :
    (stripWs (pyOr (some " hello ".toList) none) ≠ [] ∧
      pyOr (some "note".toList) none ≠ []) ∧
    ∃ c, processItem ["hello".toList] "doc.md".toList
        ⟨some " hello ".toList, some "note".toList, none, none, none, none⟩ =
          some c ∧ c.path = "doc.md".toList ∧
      (∀ n : Int, (none : Option Int) = some n → n ≠ 0 → c.line = n) ∧
      (((none : Option Int) = none ∨ (none : Option Int) = some 0) →
        c.line = ((find_lineno_by_excerpt ["hello".toList]
          (stripWs (pyOr (some " hello ".toList) none))).getD 1 : Nat) ∧
          0 < c.line) ∧
      ((∀ n : Int, (none : Option Int) = some n → 0 ≤ n) → 0 < c.line) :=
  ⟨⟨by decide, by decide⟩,
    inline_comment_lineno_policy ["hello".toList] "doc.md".toList
      ⟨some " hello ".toList, some "note".toList, none, none, none, none⟩
      (by decide) (by decide)⟩

/-- Run-identifying environment context consumed by the failure notice. -/
structure EnvCtx where
  githubServerUrl : Option (List Char)
  githubRepository : Option (List Char)
  githubRunId : Option (List Char)
deriving DecidableEq

/-- Python truthiness of an environment value: absent or empty is falsy. -/
def truthyEnv : Option (List Char) → Bool
  | some (_ :: _) => true
  | _ => false

/-- The optional Actions run URL:
`f"{server}/{repo_env}/actions/runs/{run_id}" if run_id else None` where
`server` defaults to `https://github.com` only when the variable is absent
and `repo_env` defaults to the `REPO` value. -/
def runUrl (env : EnvCtx) (repo : List Char) : Option (List Char) :=
  match env.githubRunId with
  | some (c :: cs) =>
    some ((env.githubServerUrl.getD "https://github.com".toList) ++
      '/' :: (env.githubRepository.getD repo) ++
      "/actions/runs/".toList ++ (c :: cs))
  | _ => none

/-- `LOG_RING`'s capacity (`deque(maxlen=1000)`). -/
def LOG_RING_MAXLEN : Nat := 1000

/-- Appending to the bounded ring: the oldest entry is evicted when full. -/
def ringAppend (ring : List (List Char)) (entry : List Char) : List (List Char) :=
  (ring ++ [entry]).drop ((ring.length + 1) - LOG_RING_MAXLEN)

/-- `list(LOG_RING)[-120:]`: the last 120 entries. -/
def ringTail (ring : List (List Char)) : List (List Char) :=
  ring.drop (ring.length - 120)

/-- The lines of the failure-notice comment, translated from the incremental
list building in `main`'s except-branch. -/
def noticeLines (env : EnvCtx) (repo : List Char) (ring : List (List Char))
    (review_body : List Char) (inline_count : Nat) (e : List Char) :
    List (List Char) :=
  (["CI レビューの投稿に失敗しました。詳細を確認してください。".toList,
    [],
    "- 失敗理由 (例外):".toList,
    fenceOpen,
    e,
    fenceClose,
    "- 総評の有無: ".toList ++
      (if review_body = [] then "なし".toList else "あり".toList),
    "- インライン予定件数: ".toList ++ Nat.toDigits 10 inline_count] ++
   (match runUrl env repo with
    | some u => [[], "Actions の実行ログ: ".toList ++ u]
    | none => []) ++
   (if ringTail ring = [] then []
    else [[], "- ログ抜粋 (末尾 120 行):".toList, fenceOpen,
      _sanitize_fence (joinSep ['\n'] (ringTail ring)), fenceClose]) ++
   [[], "必要に応じて PR にラベル `ci-review` を付け直して再実行してください。".toList])

/-- The failure-notice comment body. -/
def buildFailureNotice (env : EnvCtx) (repo : List Char)
    (ring : List (List Char)) (review_body : List Char)
    (inline_count : Nat) (e : List Char) : List Char :=
  joinSep ['\n'] (noticeLines env repo ring review_body inline_count e)

/-- The GitHub API posts the orchestration can attempt: the combined review,
a plain issue comment, and (only in the commented-out fallback) a single
inline comment. -/
inductive ApiCall where
  | pullReview (body : List Char) (comments : List ReviewPayload)
  | issueComment (body : List Char)
  | inlineComment (path : List Char) (line : Int) (body : List Char)
deriving DecidableEq

/-- Is a call a plain issue comment? -/
def ApiCall.isIssueComment : ApiCall → Bool
  | .issueComment _ => true
  | _ => false

/-- Is a call a per-item inline comment? -/
def ApiCall.isInlineComment : ApiCall → Bool
  | .inlineComment _ _ _ => true
  | _ => false

/-- The submission tail of `main`, with the outcomes of the two HTTP posts
injected: attempt the combined review; on failure, log the warning into the
ring, compose the single failure notice and attempt to post it, swallowing a
failure of that second post as well.  The result is the list of attempted
calls; an uncaught exception would be `Except.error`. -/
def submitPhase (env : EnvCtx) (repo : List Char) (ring : List (List Char))
    (review_body : List Char) (payload : List ReviewPayload)
    (reviewOutcome : Except (List Char) Unit)
    (noticeOutcome : Except (List Char) Unit) :
    Except (List Char) (List ApiCall) :=
  match reviewOutcome with
  | .ok _ => .ok [.pullReview review_body payload]
  | .error e =>
    match noticeOutcome with
    | .ok _ => .ok [.pullReview review_body payload,
        .issueComment (buildFailureNotice env repo
          (ringAppend ring ("[WARN] post_pull_review failed: ".toList ++ e))
          review_body payload.length e)]
    | .error _ => .ok [.pullReview review_body payload,
        .issueComment (buildFailureNotice env repo
          (ringAppend ring ("[WARN] post_pull_review failed: ".toList ++ e))
          review_body payload.length e)]

/-- The ring never becomes empty by appending. -/
theorem ringAppend_ne_nil (ring : List (List Char)) (entry : List Char) :
    ringAppend ring entry ≠ [] := by
  intro h
  have := congrArg List.length h
  simp [ringAppend, LOG_RING_MAXLEN] at this
  omega

/-- The tail of a non-empty ring is non-empty. -/
theorem ringTail_ne_nil (ring : List (List Char)) (h : ring ≠ []) :
    ringTail ring ≠ [] := by
  intro habs
  have h1 := congrArg List.length habs
  simp [ringTail] at h1
  have h2 : ring.length ≠ 0 := fun h0 => h (List.length_eq_zero.mp h0)
  omega

/-- C8: when the combined submission fails, the orchestrator attempts exactly
one degraded failure notice — never zero, never more than one, and never a
per-item inline fallback — regardless of how many inline comments were queued
and of whether the notice post itself succeeds; the notice contains the
exception text, the overall-presence indicator, the inline count, the run-log
link when the run id is truthy, and the sanitized tail of the bounded log. -/
theorem submit_failure_single_notice (env : EnvCtx) (repo : List Char)
    (ring : List (List Char)) (review_body : List Char)
    (payload : List ReviewPayload) (e : List Char)
    (noticeOutcome : Except (List Char) Unit) :
    ∃ ring2 L notice,
      ring2 = ringAppend ring ("[WARN] post_pull_review failed: ".toList ++ e) ∧
      L = noticeLines env repo ring2 review_body payload.length e ∧
      notice = joinSep ['\n'] L ∧
      submitPhase env repo ring review_body payload (Except.error e) noticeOutcome =
        Except.ok [ApiCall.pullReview review_body payload,
          ApiCall.issueComment notice] ∧
      (([ApiCall.pullReview review_body payload,
          ApiCall.issueComment notice].filter ApiCall.isIssueComment).length = 1) ∧
      (∀ c ∈ [ApiCall.pullReview review_body payload,
          ApiCall.issueComment notice], c.isInlineComment = false) ∧
      e ∈ L ∧
      ("- 総評の有無: ".toList ++
        (if review_body = [] then "なし".toList else "あり".toList)) ∈ L ∧
      ("- インライン予定件数: ".toList ++ Nat.toDigits 10 payload.length) ∈ L ∧
      (∀ u, runUrl env repo = some u →
        ("Actions の実行ログ: ".toList ++ u) ∈ L) ∧
      _sanitize_fence (joinSep ['\n'] (ringTail ring2)) ∈ L := by
  refine ⟨ringAppend ring ("[WARN] post_pull_review failed: ".toList ++ e),
    noticeLines env repo
      (ringAppend ring ("[WARN] post_pull_review failed: ".toList ++ e))
      review_body payload.length e,
    buildFailureNotice env repo
      (ringAppend ring ("[WARN] post_pull_review failed: ".toList ++ e))
      review_body payload.length e,
    rfl, rfl, rfl, ?_, by rfl, ?_, ?_, ?_, ?_, ?_, ?_⟩
  · cases noticeOutcome with
    | ok u => rfl
    | error e2 => rfl
  · intro c hc
    rcases List.mem_cons.mp hc with rfl | hc2
    · rfl
    · rcases List.mem_cons.mp hc2 with rfl | hc3
      · rfl
      · simp at hc3
  · simp [noticeLines]
  · simp [noticeLines]
  · simp [noticeLines]
  · intro u hu
    simp [noticeLines, hu]
  · have hne : ringTail (ringAppend ring
        ("[WARN] post_pull_review failed: ".toList ++ e)) ≠ [] :=
      ringTail_ne_nil _ (ringAppend_ne_nil _ _)
    rw [noticeLines]
    refine List.mem_append.mpr (Or.inl (List.mem_append.mpr (Or.inr ?_)))
    rw [if_neg hne]
    simp

/-- C9: whatever the outcomes of the combined submission and of the
notice post, the submission phase terminates normally rather than raising,
and a failure of the notice post changes nothing observable: the attempted
calls are the same as when the notice post succeeds. -/
theorem submit_never_raises (env : EnvCtx) (repo : List Char)
    (ring : List (List Char)) (review_body : List Char)
    (payload : List ReviewPayload)
    (reviewOutcome noticeOutcome : Except (List Char) Unit) :
    (submitPhase env repo ring review_body payload
      reviewOutcome noticeOutcome).isOk = true ∧
    (∀ e2, noticeOutcome = Except.error e2 →
      submitPhase env repo ring review_body payload reviewOutcome noticeOutcome =
        submitPhase env repo ring review_body payload reviewOutcome
          (Except.ok ())) := by
  constructor
  · cases reviewOutcome with
    | ok u => rfl
    | error e => cases noticeOutcome with
      | ok u => rfl
      | error e2 => rfl
  · intro e2 hn
    subst hn
    cases reviewOutcome with
    | ok u => rfl
    | error e => rfl

/-- A fold preserves any invariant its step preserves. -/
theorem foldl_preserve {α β : Type} (P : β → Prop) (f : β → α → β)
    (hf : ∀ b a, P b → P (f b a)) :
    ∀ (l : List α) (b : β), P b → P (l.foldl f b) := by
  intro l
  induction l with
  | nil => intro b hb; exact hb
  | cons x xs ih => intro b hb; exact ih (f b x) (hf b x hb)

/-- The common run is no longer than the first string. -/
theorem runLen_le_left : ∀ xs ys : List Char, runLen xs ys ≤ xs.length := by
  intro xs
  induction xs with
  | nil => intro ys; cases ys <;> simp [runLen]
  | cons x xs' ih =>
    intro ys
    cases ys with
    | nil => simp [runLen]
    | cons y ys' =>
      by_cases h : x = y <;> simp [runLen, h]
      exact ih ys'

/-- The common run is no longer than the second string. -/
theorem runLen_le_right : ∀ xs ys : List Char, runLen xs ys ≤ ys.length := by
  intro xs
  induction xs with
  | nil => intro ys; cases ys <;> simp [runLen]
  | cons x xs' ih =>
    intro ys
    cases ys with
    | nil => simp [runLen]
    | cons y ys' =>
      by_cases h : x = y <;> simp [runLen, h]
      exact ih ys'

/-- The common run of equal non-popular characters is no longer than the
first string. -/
theorem runLenNP_le_left (pop : Char → Bool) :
    ∀ xs ys : List Char, runLenNP pop xs ys ≤ xs.length := by
  intro xs
  induction xs with
  | nil => intro ys; cases ys <;> simp [runLenNP]
  | cons x xs' ih =>
    intro ys
    cases ys with
    | nil => simp [runLenNP]
    | cons y ys' =>
      by_cases h : x = y ∧ pop y = false <;> simp [runLenNP, h]
      exact ih ys'

/-- The common run of equal non-popular characters is no longer than the
second string. -/
theorem runLenNP_le_right (pop : Char → Bool) :
    ∀ xs ys : List Char, runLenNP pop xs ys ≤ ys.length := by
  intro xs
  induction xs with
  | nil => intro ys; cases ys <;> simp [runLenNP]
  | cons x xs' ih =>
    intro ys
    cases ys with
    | nil => simp [runLenNP]
    | cons y ys' =>
      by_cases h : x = y ∧ pop y = false <;> simp [runLenNP, h]
      exact ih ys'

/-- The DP phase either finds nothing (and stays at `(0,0,0)`) or reports a
real non-empty run of non-popular characters at its reported offsets. -/
theorem bestMatchDP_spec (pop : Char → Bool) (a b : List Char) :
    bestMatchDP pop a b = (0, 0, 0) ∨
    (0 < (bestMatchDP pop a b).2.2 ∧
      (bestMatchDP pop a b).2.2 =
        runLenNP pop (a.drop (bestMatchDP pop a b).1)
          (b.drop (bestMatchDP pop a b).2.1)) := by
  unfold bestMatchDP
  apply foldl_preserve
    (P := fun t : Nat × Nat × Nat =>
      t = (0, 0, 0) ∨
      (0 < t.2.2 ∧ t.2.2 = runLenNP pop (a.drop t.1) (b.drop t.2.1)))
  · intro t i ht
    apply foldl_preserve
      (P := fun t : Nat × Nat × Nat =>
        t = (0, 0, 0) ∨
        (0 < t.2.2 ∧ t.2.2 = runLenNP pop (a.drop t.1) (b.drop t.2.1)))
    · intro t2 j ht2
      by_cases hlt : t2.2.2 < runLenNP pop (a.drop i) (b.drop j)
      · refine Or.inr ⟨?_, ?_⟩ <;> simp [hlt]
        omega
      · simpa [hlt] using ht2
    · exact ht
  · left; rfl

/-- The DP block lies within both strings. -/
theorem bestMatchDP_bounds (pop : Char → Bool) (a b : List Char) :
    (bestMatchDP pop a b).1 + (bestMatchDP pop a b).2.2 ≤ a.length ∧
    (bestMatchDP pop a b).2.1 + (bestMatchDP pop a b).2.2 ≤ b.length := by
  rcases bestMatchDP_spec pop a b with h0 | ⟨hpos, hrun⟩
  · rw [h0]; simp
  · have h1 := runLenNP_le_left pop
      (a.drop (bestMatchDP pop a b).1) (b.drop (bestMatchDP pop a b).2.1)
    have h2 := runLenNP_le_right pop
      (a.drop (bestMatchDP pop a b).1) (b.drop (bestMatchDP pop a b).2.1)
    rw [← hrun] at h1 h2
    rw [List.length_drop] at h1
    rw [List.length_drop] at h2
    omega

/-- The left extension keeps the block within both strings. -/
theorem extendLeft_bounds (a b : List Char) (d : Nat × Nat × Nat)
    (h1 : d.1 + d.2.2 ≤ a.length) (h2 : d.2.1 + d.2.2 ≤ b.length) :
    (extendLeft a b d).1 + (extendLeft a b d).2.2 ≤ a.length ∧
    (extendLeft a b d).2.1 + (extendLeft a b d).2.2 ≤ b.length := by
  have he1 : runLen (a.take d.1).reverse (b.take d.2.1).reverse ≤ d.1 := by
    have := runLen_le_left (a.take d.1).reverse (b.take d.2.1).reverse
    simp [List.length_take] at this
    omega
  have he2 : runLen (a.take d.1).reverse (b.take d.2.1).reverse ≤ d.2.1 := by
    have := runLen_le_right (a.take d.1).reverse (b.take d.2.1).reverse
    simp [List.length_take] at this
    omega
  unfold extendLeft
  constructor <;> simp only [] <;> omega

/-- The right extension keeps the block within both strings. -/
theorem extendRight_bounds (a b : List Char) (d : Nat × Nat × Nat)
    (h1 : d.1 + d.2.2 ≤ a.length) (h2 : d.2.1 + d.2.2 ≤ b.length) :
    (extendRight a b d).1 + (extendRight a b d).2.2 ≤ a.length ∧
    (extendRight a b d).2.1 + (extendRight a b d).2.2 ≤ b.length := by
  have hr1 := runLen_le_left (a.drop (d.1 + d.2.2)) (b.drop (d.2.1 + d.2.2))
  have hr2 := runLen_le_right (a.drop (d.1 + d.2.2)) (b.drop (d.2.1 + d.2.2))
  rw [List.length_drop] at hr1
  rw [List.length_drop] at hr2
  unfold extendRight
  constructor <;> simp only [] <;> omega

/-- The block reported by `find_longest_match` lies within both strings. -/
theorem bestMatch_bounds (pop : Char → Bool) (a b : List Char) :
    (bestMatch pop a b).1 + (bestMatch pop a b).2.2 ≤ a.length ∧
    (bestMatch pop a b).2.1 + (bestMatch pop a b).2.2 ≤ b.length := by
  have h0 := bestMatchDP_bounds pop a b
  have h1 := extendLeft_bounds a b (bestMatchDP pop a b) h0.1 h0.2
  have h2 := extendRight_bounds a b (extendLeft a b (bestMatchDP pop a b)) h1.1 h1.2
  exact h2

/-- `a.length + b.length` units of fuel always suffice for `matchTotalF`:
beyond that bound the result no longer depends on the fuel, so the fuelled
recursion computes the fixpoint of difflib's `get_matching_blocks` total. -/
theorem matchTotalF_fuel (pop : Char → Bool) : ∀ (fuel : Nat) (a b : List Char),
    a.length + b.length ≤ fuel →
    matchTotalF pop fuel a b = matchTotalF pop (a.length + b.length) a b := by
  intro fuel
  induction fuel using Nat.strong_induction_on with
  | _ fuel ih =>
    intro a b hab
    rcases Nat.eq_or_lt_of_le hab with heq | hlt
    · rw [heq]
    · obtain ⟨f, rfl⟩ : ∃ f, fuel = f + 1 := ⟨fuel - 1, by omega⟩
      rcases hbm : bestMatch pop a b with ⟨i, j, k⟩
      have hbounds := bestMatch_bounds pop a b
      rw [hbm] at hbounds
      have hb1 : i + k ≤ a.length := by simpa using hbounds.1
      have hb2 : j + k ≤ b.length := by simpa using hbounds.2
      by_cases hk : k = 0
      · have h1 : matchTotalF pop (f + 1) a b = 0 := by
          simp [matchTotalF, hbm, hk]
        rw [h1]
        rcases hn : a.length + b.length with _ | m
        · rfl
        · simp [matchTotalF, hbm, hk]
      · have hkpos : 0 < k := Nat.pos_of_ne_zero hk
        have hi : i < a.length := by omega
        have hj : j < b.length := by omega
        have hs1 : matchTotalF pop (f + 1) a b =
            matchTotalF pop f (a.take i) (b.take j) + k +
            matchTotalF pop f (a.drop (i + k)) (b.drop (j + k)) := by
          simp [matchTotalF, hbm, hk]
        obtain ⟨m, hm⟩ : ∃ m, a.length + b.length = m + 1 :=
          ⟨a.length + b.length - 1, by omega⟩
        have hs2 : matchTotalF pop (a.length + b.length) a b =
            matchTotalF pop m (a.take i) (b.take j) + k +
            matchTotalF pop m (a.drop (i + k)) (b.drop (j + k)) := by
          rw [hm]
          simp [matchTotalF, hbm, hk]
        have hlt1 : (a.take i).length + (b.take j).length < a.length + b.length := by
          simp [List.length_take]
          omega
        have hlt2 : (a.drop (i + k)).length + (b.drop (j + k)).length <
            a.length + b.length := by
          simp [List.length_drop]
          omega
        rw [hs1, hs2,
          ih f (by omega) (a.take i) (b.take j) (by omega),
          ih f (by omega) (a.drop (i + k)) (b.drop (j + k)) (by omega),
          ih m (by omega) (a.take i) (b.take j) (by omega),
          ih m (by omega) (a.drop (i + k)) (b.drop (j + k)) (by omega)]

/-- A popular character at the head of the second string stops a purged run
immediately. -/
theorem runLenNP_zero_of_pop (pop : Char → Bool) (y : Char) (hy : pop y = true) :
    ∀ (xs ys : List Char), runLenNP pop xs (y :: ys) = 0 := by
  intro xs ys
  cases xs with
  | nil => rfl
  | cons c cs => simp [runLenNP, hy]

/-- The autojunk purge in action, on difflib's own scale: for the excerpt
`"y" ++ "x"*199` against the line `"x"*200`, the character `x` is popular
(200 occurrences > 200/100 + 1), so no block can be seeded, the greedy
extension fails at the first character, and the ratio is `0` — whereas a
model without the purge would score `398/400`. -/
theorem simScore_autojunk_example :
    simScore ('y' :: List.replicate 199 'x') (List.replicate 200 'x') = 0 := by
  have hpop : isPopular (List.replicate 200 'x') 'x' = true := by
    rw [isPopular, List.count_replicate_self, List.length_replicate]
    decide
  have hzero : ∀ i j, runLenNP (isPopular (List.replicate 200 'x'))
      (('y' :: List.replicate 199 'x').drop i)
      ((List.replicate 200 'x').drop j) = 0 := by
    intro i j
    rw [List.drop_replicate]
    rcases hn : 200 - j with _ | m
    · cases h : ('y' :: List.replicate 199 'x').drop i <;> simp [runLenNP]
    · rw [List.replicate_succ]
      exact runLenNP_zero_of_pop _ 'x' hpop _ _
  have hdp : bestMatchDP (isPopular (List.replicate 200 'x'))
      ('y' :: List.replicate 199 'x') (List.replicate 200 'x') = (0, 0, 0) := by
    unfold bestMatchDP
    apply foldl_preserve (P := fun t : Nat × Nat × Nat => t = (0, 0, 0))
    · intro t i ht
      apply foldl_preserve (P := fun t : Nat × Nat × Nat => t = (0, 0, 0))
      · intro t2 j ht2
        rw [hzero i j]
        simp [ht2]
      · exact ht
    · rfl
  have hrl : runLen ('y' :: List.replicate 199 'x') (List.replicate 200 'x') = 0 := by
    rw [show (List.replicate 200 'x') = 'x' :: List.replicate 199 'x' from rfl]
    simp [runLen]
  have hbm : bestMatch (isPopular (List.replicate 200 'x'))
      ('y' :: List.replicate 199 'x') (List.replicate 200 'x') = (0, 0, 0) := by
    rw [bestMatch, hdp]
    simp [extendLeft, extendRight, runLen, hrl]
  have hmt : matchTotal ('y' :: List.replicate 199 'x') (List.replicate 200 'x') = 0 := by
    rw [matchTotal]
    have hlen : ('y' :: List.replicate 199 'x').length +
        (List.replicate 200 'x').length = 400 := by simp
    rw [hlen, show (400 : Nat) = 399 + 1 from rfl, matchTotalF, hbm]
    rfl
  rw [simScore, hmt]
  simp
